import Mathlib

/-!
Verification of the veridjs core against its specification.

The TypeScript sources are shallowly embedded: byte arrays (`Uint8Array`)
become `List Nat` with entries below 256, JavaScript strings become lists of
UTF-16 code units (`List Nat`), fallible operations (functions that may throw)
return `Option`, and JavaScript 32-bit integer wrap-around is written as
`% 4294967296`.  Node's `crypto` primitives (SHA-256, HMAC-SHA256) are given
executable reference implementations.
-/

set_option maxRecDepth 4096

/-! ## Big-endian digit strings

`digitsBE base k n` is the big-endian, fixed-width-`k` base-`base` digit
expansion of `n` (truncating above `base ^ k`); `beNum base l` reads a digit
list back as a number.  Byte strings are the `base = 256` case; base32 digit
strings the `base = 32` case. -/

def digitsBE (base : Nat) : Nat → Nat → List Nat
  | 0, _ => []
  | k + 1, n => (n / base ^ k) % base :: digitsBE base k n

def beNum (base : Nat) (l : List Nat) : Nat :=
  l.foldl (fun a d => a * base + d) 0

theorem digitsBE_length (base k n : Nat) : (digitsBE base k n).length = k := by
  induction k generalizing n with
  | zero => rfl
  | succ k ih => simp [digitsBE, ih]

theorem digitsBE_mem_lt (base k n : Nat) (hb : 0 < base) :
    ∀ x ∈ digitsBE base k n, x < base := by
  induction k generalizing n with
  | zero => intro x hx; simp [digitsBE] at hx
  | succ k ih =>
    intro x hx
    simp only [digitsBE, List.mem_cons] at hx
    rcases hx with h | h
    · exact h ▸ Nat.mod_lt _ hb
    · exact ih n x h

theorem beNum_foldl_init (base : Nat) (l : List Nat) (a : Nat) :
    List.foldl (fun a d => a * base + d) a l = a * base ^ l.length + beNum base l := by
  induction l generalizing a with
  | nil => simp [beNum]
  | cons d rest ih =>
    simp only [List.foldl_cons, List.length_cons, beNum]
    rw [ih (a * base + d), ih (0 * base + d)]
    ring

theorem beNum_cons (base d : Nat) (rest : List Nat) :
    beNum base (d :: rest) = d * base ^ rest.length + beNum base rest := by
  simp only [beNum, List.foldl_cons]
  have := beNum_foldl_init base rest (0 * base + d)
  simpa [beNum] using this

theorem beNum_lt (base : Nat) (l : List Nat)
    (h : ∀ x ∈ l, x < base) : beNum base l < base ^ l.length := by
  induction l with
  | nil => simp [beNum]
  | cons d rest ih =>
    have hd : d < base := h d (by simp)
    have hrest := ih (fun x hx => h x (by simp [hx]))
    rw [beNum_cons]
    calc d * base ^ rest.length + beNum base rest
        < d * base ^ rest.length + base ^ rest.length := by omega
      _ = (d + 1) * base ^ rest.length := by ring
      _ ≤ base * base ^ rest.length := by
          exact Nat.mul_le_mul_right _ (by omega)
      _ = base ^ (d :: rest).length := by
          simp [List.length_cons, pow_succ]; ring

theorem beNum_digitsBE (base k n : Nat) :
    beNum base (digitsBE base k n) = n % base ^ k := by
  induction k generalizing n with
  | zero => simp [digitsBE, beNum, Nat.mod_one]
  | succ k ih =>
    rw [digitsBE, beNum_cons, digitsBE_length, ih, Nat.pow_succ, Nat.mod_mul]
    ring

theorem digitsBE_mod (base k n : Nat) :
    digitsBE base k (n % base ^ k) = digitsBE base k n := by
  induction k generalizing n with
  | zero => rfl
  | succ k ih =>
    simp only [digitsBE, List.cons.injEq]
    refine ⟨?_, ?_⟩
    · conv_lhs => rw [pow_succ, Nat.mod_mul_right_div_self]
      exact Nat.mod_mod_of_dvd _ (dvd_refl base)
    · rw [← ih (n % base ^ (k + 1))]
      rw [Nat.mod_mod_of_dvd _ (pow_dvd_pow base (Nat.le_succ k)), ih]

theorem digitsBE_beNum (base : Nat) (l : List Nat) (hb : 0 < base)
    (h : ∀ x ∈ l, x < base) : digitsBE base l.length (beNum base l) = l := by
  induction l with
  | nil => rfl
  | cons d rest ih =>
    have hd : d < base := h d (by simp)
    have hrest : beNum base rest < base ^ rest.length :=
      beNum_lt base rest (fun x hx => h x (by simp [hx]))
    have hB : 0 < base ^ rest.length := Nat.pos_pow_of_pos _ hb
    simp only [List.length_cons, digitsBE, beNum_cons, List.cons.injEq]
    refine ⟨?_, ?_⟩
    · rw [mul_comm, Nat.mul_add_div hB, Nat.div_eq_of_lt hrest, Nat.add_zero,
        Nat.mod_eq_of_lt hd]
    · rw [← digitsBE_mod base rest.length, mul_comm, Nat.mul_add_mod,
        Nat.mod_eq_of_lt hrest, ih (fun x hx => h x (by simp [hx]))]

theorem digitsBE_append (base j k n : Nat) :
    digitsBE base (j + k) n = digitsBE base j (n / base ^ k) ++ digitsBE base k n := by
  induction j generalizing n with
  | zero => simp [digitsBE]
  | succ j ih =>
    have harith : n / base ^ k / base ^ j = n / base ^ (j + k) := by
      rw [Nat.div_div_eq_div_mul, ← pow_add, Nat.add_comm]
    simp only [Nat.succ_add, digitsBE, ih, harith, List.cons_append]

/-! ## Byte-wise lexicographic order

`bytesLtB a b` is the strict big-endian byte-wise comparison used to state
that binary identifiers sort in mint order (a shorter list is smaller than
any proper extension, which never arises for the equal-length 18-byte
binaries compared here). -/

def bytesLtB : List Nat → List Nat → Bool
  | [], [] => false
  | [], _ :: _ => true
  | _ :: _, [] => false
  | a :: as, b :: bs => decide (a < b) || (a == b && bytesLtB as bs)

theorem bytesLtB_cons (x : Nat) (a b : List Nat) :
    bytesLtB (x :: a) (x :: b) = bytesLtB a b := by
  simp [bytesLtB]

theorem bytesLtB_append_same (a c d : List Nat) :
    bytesLtB (a ++ c) (a ++ d) = bytesLtB c d := by
  induction a with
  | nil => rfl
  | cons x xs ih => simpa [bytesLtB_cons] using ih

theorem bytesLtB_append_of_lt :
    ∀ (a b c d : List Nat), a.length = b.length → bytesLtB a b = true →
      bytesLtB (a ++ c) (b ++ d) = true := by
  intro a
  induction a with
  | nil =>
    intro b c d hlen hab
    cases b with
    | nil => simp [bytesLtB] at hab
    | cons y ys => simp at hlen
  | cons x xs ih =>
    intro b c d hlen hab
    cases b with
    | nil => simp at hlen
    | cons y ys =>
      simp only [bytesLtB, Bool.or_eq_true, Bool.and_eq_true, decide_eq_true_eq,
        beq_iff_eq] at hab
      simp only [List.cons_append, bytesLtB, Bool.or_eq_true, Bool.and_eq_true,
        decide_eq_true_eq, beq_iff_eq]
      rcases hab with h | ⟨hxy, hrest⟩
      · exact Or.inl h
      · exact Or.inr ⟨hxy, ih ys c d (by simpa using hlen) hrest⟩

theorem bytesLtB_trans :
    ∀ (a b c : List Nat), bytesLtB a b = true → bytesLtB b c = true →
      bytesLtB a c = true := by
  intro a
  induction a with
  | nil =>
    intro b c hab hbc
    cases b with
    | nil => simp [bytesLtB] at hab
    | cons y ys =>
      cases c with
      | nil => simp [bytesLtB] at hbc
      | cons z zs => simp [bytesLtB]
  | cons x xs ih =>
    intro b c hab hbc
    cases b with
    | nil => simp [bytesLtB] at hab
    | cons y ys =>
      cases c with
      | nil => simp [bytesLtB] at hbc
      | cons z zs =>
        simp only [bytesLtB, Bool.or_eq_true, Bool.and_eq_true, decide_eq_true_eq,
          beq_iff_eq] at hab hbc ⊢
        rcases hab with h1 | ⟨he1, hr1⟩ <;> rcases hbc with h2 | ⟨he2, hr2⟩
        · exact Or.inl (Nat.lt_trans h1 h2)
        · exact Or.inl (he2 ▸ h1)
        · exact Or.inl (he1 ▸ h2)
        · exact Or.inr ⟨he1.trans he2, ih ys zs hr1 hr2⟩

theorem digitsBE_lt_digitsBE (base k n m : Nat) (hb : 0 < base)
    (hnm : n < m) (hm : m < base ^ k) :
    bytesLtB (digitsBE base k n) (digitsBE base k m) = true := by
  induction k generalizing n m with
  | zero =>
    simp only [pow_zero] at hm
    omega
  | succ k ih =>
    have hB : 0 < base ^ k := Nat.pos_pow_of_pos _ hb
    have htm : m / base ^ k < base :=
      Nat.div_lt_of_lt_mul (by rw [← pow_succ]; exact hm)
    have htn : n / base ^ k < base :=
      Nat.lt_of_le_of_lt (Nat.div_le_div_right (Nat.le_of_lt hnm)) htm
    have hle : n / base ^ k ≤ m / base ^ k := Nat.div_le_div_right (Nat.le_of_lt hnm)
    simp only [digitsBE, bytesLtB, Bool.or_eq_true, Bool.and_eq_true,
      decide_eq_true_eq, beq_iff_eq, Nat.mod_eq_of_lt htn, Nat.mod_eq_of_lt htm]
    rcases Nat.lt_or_ge (n / base ^ k) (m / base ^ k) with hlt | hge
    · exact Or.inl hlt
    · have heq : n / base ^ k = m / base ^ k := Nat.le_antisymm hle hge
      refine Or.inr ⟨heq, ?_⟩
      have hmods : n % base ^ k < m % base ^ k := by
        have hn' := Nat.div_add_mod n (base ^ k)
        have hm' := Nat.div_add_mod m (base ^ k)
        rw [heq] at hn'
        omega
      rw [← digitsBE_mod base k n, ← digitsBE_mod base k m]
      exact ih _ _ hmods (Nat.mod_lt _ hB)

/-! ## SHA-256 (reference implementation of the `crypto` module primitive)

Node's `crypto.createHash("sha256")` / `crypto.createHmac("sha256", key)`
are external primitives of the runtime, not code of this repository; they are
embedded here as an executable FIPS 180-4 SHA-256 over byte lists.  32-bit
words are `Nat` with wrap-around written `% 4294967296`. -/

def rotr32 (n x : Nat) : Nat :=
  x / 2 ^ n + x % 2 ^ n * 2 ^ (32 - n)

def sha256K : List Nat :=
  [1116352408, 1899447441, 3049323471, 3921009573,
   961987163, 1508970993, 2453635748, 2870763221,
   3624381080, 310598401, 607225278, 1426881987,
   1925078388, 2162078206, 2614888103, 3248222580,
   3835390401, 4022224774, 264347078, 604807628,
   770255983, 1249150122, 1555081692, 1996064986,
   2554220882, 2821834349, 2952996808, 3210313671,
   3336571891, 3584528711, 113926993, 338241895,
   666307205, 773529912, 1294757372, 1396182291,
   1695183700, 1986661051, 2177026350, 2456956037,
   2730485921, 2820302411, 3259730800, 3345764771,
   3516065817, 3600352804, 4094571909, 275423344,
   430227734, 506948616, 659060556, 883997877,
   958139571, 1322822218, 1537002063, 1747873779,
   1955562222, 2024104815, 2227730452, 2361852424,
   2428436474, 2756734187, 3204031479, 3329325298]

structure Sha256State where
  a : Nat
  b : Nat
  c : Nat
  d : Nat
  e : Nat
  f : Nat
  g : Nat
  hh : Nat

def sha256Init : Sha256State :=
  ⟨1779033703, 3144134277, 1013904242, 2773480762,
   1359893119, 2600822924, 528734635, 1541459225⟩

/-- Pack bytes into big-endian 32-bit words, four at a time. -/
def bytesToWords : List Nat → List Nat
  | b0 :: b1 :: b2 :: b3 :: rest =>
    (((b0 * 256 + b1) * 256 + b2) * 256 + b3) :: bytesToWords rest
  | _ => []

/-- Extend 16 message-schedule words to 64. -/
def sha256Extend (w : List Nat) : List Nat :=
  (List.range 48).foldl
    (fun acc i =>
      let w15 := acc.getD (i + 1) 0
      let w2 := acc.getD (i + 14) 0
      let s0 := rotr32 7 w15 ^^^ rotr32 18 w15 ^^^ w15 / 2 ^ 3
      let s1 := rotr32 17 w2 ^^^ rotr32 19 w2 ^^^ w2 / 2 ^ 10
      acc ++ [(acc.getD i 0 + s0 + acc.getD (i + 9) 0 + s1) % 4294967296])
    w

def sha256Round (st : Sha256State) (k w : Nat) : Sha256State :=
  let s1 := rotr32 6 st.e ^^^ rotr32 11 st.e ^^^ rotr32 25 st.e
  let ch := st.e &&& st.f ^^^ (4294967295 - st.e) &&& st.g
  let t1 := (st.hh + s1 + ch + k + w) % 4294967296
  let s0 := rotr32 2 st.a ^^^ rotr32 13 st.a ^^^ rotr32 22 st.a
  let maj := st.a &&& st.b ^^^ st.a &&& st.c ^^^ st.b &&& st.c
  let t2 := (s0 + maj) % 4294967296
  ⟨(t1 + t2) % 4294967296, st.a, st.b, st.c,
   (st.d + t1) % 4294967296, st.e, st.f, st.g⟩

def sha256Block (st : Sha256State) (block : List Nat) : Sha256State :=
  let w := sha256Extend (bytesToWords block)
  let r := (sha256K.zip w).foldl (fun s kw => sha256Round s kw.1 kw.2) st
  ⟨(st.a + r.a) % 4294967296, (st.b + r.b) % 4294967296,
   (st.c + r.c) % 4294967296, (st.d + r.d) % 4294967296,
   (st.e + r.e) % 4294967296, (st.f + r.f) % 4294967296,
   (st.g + r.g) % 4294967296, (st.hh + r.hh) % 4294967296⟩

/-- Split a byte list into 64-byte chunks; the fuel argument (any bound on the
list length) keeps the recursion structural. -/
def chunks64 : Nat → List Nat → List (List Nat)
  | 0, _ => []
  | _, [] => []
  | fuel + 1, l => l.take 64 :: chunks64 fuel (l.drop 64)

/-- FIPS 180-4 padding: `0x80`, zeros to 56 mod 64, 8-byte big-endian bit
length. -/
def sha256Pad (msg : List Nat) : List Nat :=
  msg ++ [128] ++ List.replicate ((120 - (msg.length + 1) % 64) % 64) 0
      ++ digitsBE 256 8 (8 * msg.length)

def sha256 (msg : List Nat) : List Nat :=
  let padded := sha256Pad msg
  let st := (chunks64 padded.length padded).foldl sha256Block sha256Init
  digitsBE 256 4 st.a ++ digitsBE 256 4 st.b ++ digitsBE 256 4 st.c ++
    digitsBE 256 4 st.d ++ digitsBE 256 4 st.e ++ digitsBE 256 4 st.f ++
    digitsBE 256 4 st.g ++ digitsBE 256 4 st.hh

theorem sha256_length (msg : List Nat) : (sha256 msg).length = 32 := by
  simp [sha256, digitsBE_length]

theorem sha256_mem_lt (msg : List Nat) : ∀ x ∈ sha256 msg, x < 256 := by
  intro x hx
  simp only [sha256, List.mem_append] at hx
  rcases hx with ((((((h | h) | h) | h) | h) | h) | h) | h <;>
    exact digitsBE_mem_lt 256 4 _ (by omega) x h

/-- HMAC-SHA256 (RFC 2104) over byte lists, the embedding of
`crypto.createHmac("sha256", key).update(msg).digest()`. -/
def hmacSha256 (key msg : List Nat) : List Nat :=
  let k0 := if 64 < key.length then sha256 key else key
  let kp := k0 ++ List.replicate (64 - k0.length) 0
  let inner := sha256 (kp.map (fun b => b ^^^ 54) ++ msg)
  sha256 (kp.map (fun b => b ^^^ 92) ++ inner)

theorem hmacSha256_length (key msg : List Nat) : (hmacSha256 key msg).length = 32 :=
  sha256_length _

/-! ## JavaScript string primitives

JS strings are lists of UTF-16 code units.  `String.prototype.trim` and
`String.prototype.toUpperCase` are modelled on the ranges the library
touches: the whitespace set used by `trim`, and the ASCII letter range for
`toUpperCase` (all alphabet characters and all concrete inputs in the claims
are ASCII). -/

def jsWhite (c : Nat) : Bool :=
  c = 32 || c = 9 || c = 10 || c = 13 || c = 11 || c = 12 || c = 160 || c = 65279

def jsTrim (s : List Nat) : List Nat :=
  ((s.dropWhile jsWhite).reverse.dropWhile jsWhite).reverse

def jsUpperChar (c : Nat) : Nat :=
  if 97 ≤ c && c ≤ 122 then c - 32 else c

def jsToUpper (s : List Nat) : List Nat :=
  s.map jsUpperChar

theorem jsTrim_eq_self (s : List Nat) (h : ∀ c ∈ s, jsWhite c = false) :
    jsTrim s = s := by
  have h1 : s.dropWhile jsWhite = s := by
    cases s with
    | nil => rfl
    | cons c rest => rw [List.dropWhile_cons_of_neg (by simp [h c (by simp)])]
  have h2 : s.reverse.dropWhile jsWhite = s.reverse := by
    cases hrev : s.reverse with
    | nil => rfl
    | cons c rest =>
      rw [List.dropWhile_cons_of_neg]
      simp only [h c (by rw [← List.mem_reverse, hrev]; simp), Bool.false_eq_true,
        not_false_eq_true]
  rw [jsTrim, h1, h2, List.reverse_reverse]

/-- UTF-8 encoding of a UTF-16 code-unit sequence (what Node's
`hash.update(str, "utf8")` applies); unpaired surrogates become U+FFFD. -/
def utf8Encode : List Nat → List Nat
  | [] => []
  | c :: rest =>
    if c < 128 then c :: utf8Encode rest
    else if c < 2048 then (192 + c / 64) :: (128 + c % 64) :: utf8Encode rest
    else if 55296 ≤ c && c < 56320 then
      match rest with
      | c2 :: rest2 =>
        if 56320 ≤ c2 && c2 < 57344 then
          let cp := 65536 + (c - 55296) * 1024 + (c2 - 56320)
          (240 + cp / 262144) :: (128 + cp / 4096 % 64) :: (128 + cp / 64 % 64) ::
            (128 + cp % 64) :: utf8Encode rest2
        else 239 :: 191 :: 189 :: utf8Encode (c2 :: rest2)
      | [] => [239, 191, 189]
    else if 56320 ≤ c && c < 57344 then 239 :: 191 :: 189 :: utf8Encode rest
    else (224 + c / 4096) :: (128 + c / 64 % 64) :: (128 + c % 64) :: utf8Encode rest
termination_by l => l.length
decreasing_by all_goals (simp only [List.length_cons]; omega)

/-! ## Base32Encoder (src/encoding/Base32Encoder.ts)

The encoder/decoder loops are bit-streaming base conversions.  Both are
instances of one stream core: consume `ib`-bit input digits, accumulate into
a 32-bit-wrapping accumulator (JS `<<`/`|` arithmetic), and emit `ob`-bit
output digits whenever at least `ob` bits are pending.  The encoder is the
`ib = 8, ob = 5` instance (its inner `while` emits `(bits + 8) / 5`
characters per byte); the decoder's `if` is the `ib = 5, ob = 8` instance
(at most one emission per character, since `bits + 5 ≤ 12`). -/

def emitDigits (ob : Nat) : Nat → Nat → Nat → List Nat
  | 0, _, _ => []
  | q + 1, bits, value =>
    value / 2 ^ (bits - ob) % 2 ^ ob :: emitDigits ob q (bits - ob) value

def streamCore (ib ob : Nat) : List Nat → Nat → Nat → List Nat × Nat × Nat
  | [], bits, value => ([], bits, value)
  | d :: rest, bits, value =>
    let v := (value * 2 ^ ib + d) % 4294967296
    let ds := emitDigits ob ((bits + ib) / ob) (bits + ib) v
    let t := streamCore ib ob rest ((bits + ib) % ob) v
    (ds ++ t.1, t.2.1, t.2.2)

theorem emitDigits_eq (ob : Nat) :
    ∀ (q r value : Nat), emitDigits ob q (ob * q + r) value =
      digitsBE (2 ^ ob) q (value / 2 ^ r) := by
  intro q
  induction q with
  | zero => intro r value; rfl
  | succ q ih =>
    intro r value
    have hsub : ob * (q + 1) + r - ob = ob * q + r := by ring_nf; omega
    have hd : value / 2 ^ r / (2 ^ ob) ^ q = value / 2 ^ (ob * q + r) := by
      rw [Nat.div_div_eq_div_mul, ← pow_mul, ← pow_add, Nat.add_comm]
    simp only [emitDigits, digitsBE, hsub, ih, hd, List.cons.injEq, and_true]

theorem emitDigits_div (ob n value : Nat) :
    emitDigits ob (n / ob) n value =
      digitsBE (2 ^ ob) (n / ob) (value / 2 ^ (n % ob)) := by
  have h := emitDigits_eq ob (n / ob) (n % ob) value
  rwa [Nat.div_add_mod] at h

theorem streamCore_spec (ib ob : Nat) (hbd : ib + ob ≤ 33) :
    ∀ (l : List Nat) (bits value : Nat), bits < ob → (∀ x ∈ l, x < 2 ^ ib) →
    ∃ vf, streamCore ib ob l bits value =
      (digitsBE (2 ^ ob) ((bits + ib * l.length) / ob)
         ((value % 2 ^ bits * 2 ^ (ib * l.length) + beNum (2 ^ ib) l) /
            2 ^ ((bits + ib * l.length) % ob)),
       (bits + ib * l.length) % ob, vf) ∧
      vf % 2 ^ ((bits + ib * l.length) % ob) =
        (value % 2 ^ bits * 2 ^ (ib * l.length) + beNum (2 ^ ib) l) %
          2 ^ ((bits + ib * l.length) % ob) := by
  intro l
  induction l with
  | nil =>
    intro bits value hbits _
    refine ⟨value, ?_, ?_⟩
    · simp only [streamCore, List.length_nil, Nat.mul_zero, Nat.add_zero, beNum,
        List.foldl_nil, pow_zero, Nat.mul_one]
      rw [Nat.div_eq_of_lt hbits, Nat.mod_eq_of_lt hbits]
      simp [digitsBE]
    · simp only [List.length_nil, Nat.mul_zero, Nat.add_zero, beNum, List.foldl_nil,
        pow_zero, Nat.mul_one]
      rw [Nat.mod_eq_of_lt hbits]
      exact (Nat.mod_mod_of_dvd value (dvd_refl _)).symm
  | cons d rest ih =>
    intro bits value hbits hmem
    have hob : 0 < ob := Nat.lt_of_le_of_lt (Nat.zero_le _) hbits
    have hd : d < 2 ^ ib := hmem d (by simp)
    -- abbreviations
    set B := bits with hB
    set v := (value * 2 ^ ib + d) % 4294967296 with hv
    set u := value % 2 ^ B * 2 ^ ib + d with hu
    set b1 := (B + ib) % ob with hb1
    set k1 := (B + ib) / ob with hk1
    set m := rest.length with hm
    -- key wrap-immunity fact: v and u agree below bit B + ib
    have hBib : B + ib ≤ 32 := by omega
    have hdvd32 : (2 : Nat) ^ (B + ib) ∣ 4294967296 := by
      have h32 : (4294967296 : Nat) = 2 ^ 32 := by norm_num
      rw [h32]
      exact pow_dvd_pow 2 hBib
    have hsplit : value * 2 ^ ib + d = u + value / 2 ^ B * 2 ^ (B + ib) := by
      have := Nat.mod_add_div value (2 ^ B)
      calc value * 2 ^ ib + d
          = (value % 2 ^ B + 2 ^ B * (value / 2 ^ B)) * 2 ^ ib + d := by rw [this]
        _ = u + value / 2 ^ B * (2 ^ B * 2 ^ ib) := by rw [hu]; ring
        _ = u + value / 2 ^ B * 2 ^ (B + ib) := by rw [← pow_add]
    have hkey : v % 2 ^ (B + ib) = u % 2 ^ (B + ib) := by
      rw [hv, Nat.mod_mod_of_dvd _ hdvd32, hsplit, Nat.add_mul_mod_self_right]
    have hb1le : b1 ≤ B + ib := Nat.le_trans (Nat.mod_le _ _) (le_refl _)
    have hkey1 : v % 2 ^ b1 = u % 2 ^ b1 := by
      have hdvd : (2 : Nat) ^ b1 ∣ 2 ^ (B + ib) := pow_dvd_pow 2 hb1le
      rw [← Nat.mod_mod_of_dvd v hdvd, hkey, Nat.mod_mod_of_dvd u hdvd]
    -- instantiate the induction hypothesis
    have hb1lt : b1 < ob := Nat.mod_lt _ hob
    obtain ⟨vf, hstream, hvf⟩ := ih b1 v hb1lt (fun x hx => hmem x (by simp [hx]))
    set q' := (b1 + ib * m) / ob with hq'
    set r := (b1 + ib * m) % ob with hr
    set s := beNum (2 ^ ib) rest with hs
    set W' := v % 2 ^ b1 * 2 ^ (ib * m) + s with hW'
    set W := u * 2 ^ (ib * m) + s with hW
    -- arithmetic on exponents
    have hE1 : B + ib * (m + 1) = ob * k1 + (b1 + ib * m) := by
      have h1 := Nat.div_add_mod (B + ib) ob
      rw [← hk1, ← hb1] at h1
      have h2 : ib * (m + 1) = ib * m + ib := by ring
      omega
    have hEmod : (B + ib * (m + 1)) % ob = r := by
      rw [hE1, Nat.mul_add_mod, ← hr]
    have hEdiv : (B + ib * (m + 1)) / ob = k1 + q' := by
      rw [hE1, Nat.mul_add_div hob, ← hq']
    have hrq : b1 + ib * m = ob * q' + r := by
      have h1 := Nat.div_add_mod (b1 + ib * m) ob
      rw [← hq', ← hr] at h1
      omega
    have hlen : (d :: rest).length = m + 1 := by rw [List.length_cons, hm]
    have hEmod' : (B + ib * (d :: rest).length) % ob = r := by rw [hlen, hEmod]
    have hEdiv' : (B + ib * (d :: rest).length) / ob = k1 + q' := by rw [hlen, hEdiv]
    -- W is the payload number for this call
    have hWnum : value % 2 ^ B * 2 ^ (ib * (d :: rest).length) + beNum (2 ^ ib) (d :: rest) = W := by
      rw [hlen, beNum_cons, hW, hu, ← hm, ← hs]
      have h1 : (2 : Nat) ^ (ib * (m + 1)) = 2 ^ ib * 2 ^ (ib * m) := by
        rw [← pow_add]; ring_nf
      have h2 : ((2 : Nat) ^ ib) ^ m = 2 ^ (ib * m) := (pow_mul 2 ib m).symm
      rw [h1, h2]; ring
    -- decompose W against W'
    have hWW' : W = W' + u / 2 ^ b1 * 2 ^ (ob * q') * 2 ^ r := by
      have hu2 : u = u % 2 ^ b1 + 2 ^ b1 * (u / 2 ^ b1) := (Nat.mod_add_div u (2 ^ b1)).symm
      calc W = (u % 2 ^ b1 + 2 ^ b1 * (u / 2 ^ b1)) * 2 ^ (ib * m) + s := by
              rw [hW, ← hu2]
        _ = u % 2 ^ b1 * 2 ^ (ib * m) + s + u / 2 ^ b1 * (2 ^ b1 * 2 ^ (ib * m)) := by ring
        _ = W' + u / 2 ^ b1 * 2 ^ (b1 + ib * m) := by
              rw [hW', hkey1, ← pow_add]
        _ = W' + u / 2 ^ b1 * 2 ^ (ob * q' + r) := by rw [hrq]
        _ = W' + u / 2 ^ b1 * 2 ^ (ob * q') * 2 ^ r := by rw [pow_add]; ring
    have hWdiv : W / 2 ^ r = W' / 2 ^ r + u / 2 ^ b1 * 2 ^ (ob * q') := by
      rw [hWW', Nat.add_mul_div_right _ _ (Nat.pos_pow_of_pos r (by omega))]
    -- (A) the tail digit lists agree
    have hA : digitsBE (2 ^ ob) q' (W / 2 ^ r) = digitsBE (2 ^ ob) q' (W' / 2 ^ r) := by
      rw [← digitsBE_mod (2 ^ ob) q' (W / 2 ^ r), ← digitsBE_mod (2 ^ ob) q' (W' / 2 ^ r)]
      congr 1
      rw [hWdiv, ← pow_mul, Nat.add_mul_mod_self_right]
    -- (B) the head digit lists agree
    have hslt : s < 2 ^ (ib * m) := by
      have := beNum_lt (2 ^ ib) rest (fun x hx => hmem x (by simp [hx]))
      rwa [← pow_mul, ← hs, ← hm] at this
    have hWu : W / 2 ^ (ib * m) = u := by
      rw [hW, Nat.mul_comm u, Nat.mul_add_div (Nat.pos_pow_of_pos _ (by omega)),
        Nat.div_eq_of_lt hslt, Nat.add_zero]
    have hWtop : W / 2 ^ r / (2 ^ ob) ^ q' = u / 2 ^ b1 := by
      rw [Nat.div_div_eq_div_mul, ← pow_mul, ← pow_add, Nat.add_comm r (ob * q'), ← hrq,
        Nat.add_comm b1 (ib * m), pow_add, ← Nat.div_div_eq_div_mul, hWu]
    have hmodid : ∀ x : Nat, x / 2 ^ b1 % 2 ^ (ob * k1) = x % 2 ^ (b1 + ob * k1) / 2 ^ b1 := by
      intro x
      rw [pow_add, Nat.mod_mul_right_div_self]
    have hb1k1 : b1 + ob * k1 = B + ib := by
      have h1 := Nat.div_add_mod (B + ib) ob
      rw [← hk1, ← hb1] at h1
      omega
    have hB' : digitsBE (2 ^ ob) k1 (W / 2 ^ r / (2 ^ ob) ^ q') =
        digitsBE (2 ^ ob) k1 (v / 2 ^ b1) := by
      rw [hWtop, ← digitsBE_mod (2 ^ ob) k1 (u / 2 ^ b1),
        ← digitsBE_mod (2 ^ ob) k1 (v / 2 ^ b1)]
      congr 1
      rw [← pow_mul, hmodid u, hmodid v, hb1k1, hkey]
    refine ⟨vf, ?_, ?_⟩
    · simp only [streamCore]
      rw [← hv, ← hb1, ← hk1, hstream, hWnum, hEmod', hEdiv', digitsBE_append, hA, hB']
      congr 2
      rw [hk1, hb1]
      exact emitDigits_div ob (B + ib) v
    · rw [hEmod', hWnum, hvf, hWW']
      conv_rhs => rw [Nat.add_mul_mod_self_right]

/-- RFC 4648 base32 alphabet (`ALPHABET` in Base32Encoder.ts). -/
def ALPHABET : String := "ABCDEFGHIJKLMNOPQRSTUVWXYZ234567"

/-- The alphabet as UTF-16 code units; `alphaCodes.getD d 0` is `ALPHABET[d]`. -/
def alphaCodes : List Nat := ALPHABET.toList.map Char.toNat

/-- `DECODE_LOOKUP`: built exactly as in the source — a table initialised to
`-1` and then overwritten with `table[ALPHABET.charCodeAt(i)] = i` for each
`i < 32`. -/
def DECODE_LOOKUP : Nat → Int :=
  (List.range 32).foldl
    (fun t i => Function.update t (alphaCodes.getD i 0) (i : Int))
    (fun _ => -1)

/-- `Base32Encoder.encode`: length guard, then the bit-streaming loop
(`value = (value << 8) | byte` with the inner `while` emitting
`(bits + 8) / 5` characters — the `ib = 8, ob = 5` stream core), then the
final zero-padded character `(value << (5 - bits)) & CHAR_MASK`.  Returns the
29 output code units, `none` for the length `RangeError`. -/
def Base32Encoder.encode (input : List Nat) : Option (List Nat) :=
  if input.length ≠ 18 then none
  else
    let t := streamCore 8 5 input 0 0
    let ds := if 0 < t.2.1 then t.1 ++ [t.2.2 * 2 ^ (5 - t.2.1) % 4294967296 % 32] else t.1
    some (ds.map fun d => alphaCodes.getD d 0)

/-- One character of the decode loop: the `charCode > MAX_ASCII` guard and the
`DECODE_LOOKUP` table (both error cases return `none`). -/
def b32CharVal (c : Nat) : Option Nat :=
  if 127 < c then none
  else if DECODE_LOOKUP c = -1 then none
  else some (DECODE_LOOKUP c).toNat

/-- The per-character lookups of the decode loop, failing at the first
invalid character. -/
def b32Vals : List Nat → Option (List Nat)
  | [] => some []
  | c :: rest =>
    match b32CharVal c, b32Vals rest with
    | some v, some vs => some (v :: vs)
    | _, _ => none

/-- `Base32Encoder.decode`: trim and uppercase, length guard, per-character
lookup, then the accumulation loop (`value = (value << 5) | charValue` with a
single `if (bits >= 8)` emission — the `ib = 5, ob = 8` stream core, whose
emit count `(bits + 5) / 8` is always 0 or 1 here), then the
`outputIndex !== 18` sanity guard. -/
def Base32Encoder.decode (input : List Nat) : Option (List Nat) :=
  let normalized := jsToUpper (jsTrim input)
  if normalized.length ≠ 29 then none
  else
    match b32Vals normalized with
    | none => none
    | some vals =>
      let t := streamCore 5 8 vals 0 0
      if t.1.length ≠ 18 then none else some t.1

/-- Each alphabet position decodes back to its index, and alphabet characters
are unaffected by trimming and uppercasing. -/
theorem alpha_code_props : ∀ d, d < 32 →
    b32CharVal (alphaCodes.getD d 0) = some d ∧
      jsWhite (alphaCodes.getD d 0) = false ∧
      jsUpperChar (alphaCodes.getD d 0) = alphaCodes.getD d 0 := by decide

/-- Any character the lookup accepts is an alphabet character: its value is
below 32, re-encoding gives back the character, and it is neither whitespace
nor a lowercase letter. -/
theorem b32CharVal_props : ∀ c, c < 128 →
    (Option.all
      (fun v => decide (v < 32) && (alphaCodes.getD v 0 == c) &&
        (jsWhite c == false) && (jsUpperChar c == c))
      (b32CharVal c)) = true := by decide

theorem b32CharVal_some (c v : Nat) (h : b32CharVal c = some v) :
    v < 32 ∧ alphaCodes.getD v 0 = c ∧ jsWhite c = false ∧ jsUpperChar c = c := by
  have hc : c < 128 := by
    by_contra hc
    push_neg at hc
    have : 127 < c := by omega
    simp [b32CharVal, this] at h
  have hp := b32CharVal_props c hc
  rw [h] at hp
  simp only [Option.all, Bool.and_eq_true, decide_eq_true_eq, beq_iff_eq] at hp
  exact ⟨hp.1.1.1, hp.1.1.2, hp.1.2, hp.2⟩

theorem b32Vals_map (ds : List Nat) (h : ∀ d ∈ ds, d < 32) :
    b32Vals (ds.map fun d => alphaCodes.getD d 0) = some ds := by
  induction ds with
  | nil => rfl
  | cons d rest ih =>
    have hd := (alpha_code_props d (h d (by simp))).1
    simp only [List.map_cons, b32Vals, hd, ih (fun x hx => h x (by simp [hx]))]

theorem b32Vals_some (s : List Nat) :
    ∀ vals, b32Vals s = some vals →
      vals.length = s.length ∧ (∀ v ∈ vals, v < 32) ∧
        (vals.map fun d => alphaCodes.getD d 0) = s ∧
        (∀ c ∈ s, jsWhite c = false ∧ jsUpperChar c = c) := by
  induction s with
  | nil =>
    intro vals h
    simp only [b32Vals, Option.some.injEq] at h
    subst h
    simp
  | cons c rest ih =>
    intro vals h
    simp only [b32Vals] at h
    rcases hcv : b32CharVal c with _ | v <;> rw [hcv] at h
    · exact absurd h (by simp)
    rcases hvs : b32Vals rest with _ | vs <;> rw [hvs] at h
    · exact absurd h (by simp)
    simp only [Option.some.injEq] at h
    subst h
    obtain ⟨hv32, hvc, hw, hu⟩ := b32CharVal_some c v hcv
    obtain ⟨hlen, hlt, hmap, hprops⟩ := ih vs hvs
    refine ⟨by simp [hlen], ?_, ?_, ?_⟩
    · intro x hx
      rcases List.mem_cons.mp hx with rfl | hx
      · exact hv32
      · exact hlt x hx
    · simp only [List.map_cons, List.cons.injEq]
      exact ⟨hvc, hmap⟩
    · intro x hx
      rcases List.mem_cons.mp hx with rfl | hx
      · exact ⟨hw, hu⟩
      · exact hprops x hx

/-- Closed form of the encoder on well-formed input: the 29 output characters
are the base-32 digits of the 144-bit big-endian payload number shifted left
by the single zero padding bit. -/
theorem Base32Encoder.encode_eq (b : List Nat) (hlen : b.length = 18)
    (hmem : ∀ x ∈ b, x < 256) :
    Base32Encoder.encode b =
      some ((digitsBE 32 29 (2 * beNum 256 b)).map fun d => alphaCodes.getD d 0) := by
  have h256 : ((2 : Nat) ^ 8) = 256 := by norm_num
  obtain ⟨vf, hst, hvf⟩ := streamCore_spec 8 5 (by omega) b 0 0 (by omega)
    (fun x hx => h256 ▸ hmem x hx)
  rw [hlen] at hst hvf
  norm_num at hst hvf
  have hsplit : digitsBE 32 29 (2 * beNum 256 b) =
      digitsBE 32 28 (beNum 256 b / 16) ++ [2 * beNum 256 b % 32] := by
    have h29 : (29 : Nat) = 28 + 1 := by norm_num
    rw [h29, digitsBE_append 32 28 1 (2 * beNum 256 b)]
    congr 1
    · congr 1
      have h321 : (32 : Nat) ^ 1 = 32 := by norm_num
      rw [h321]
      omega
    · simp [digitsBE]
  unfold Base32Encoder.encode
  rw [if_neg (by omega)]
  simp only [hst, hsplit]
  norm_num
  have hfinal : vf * 2 % 32 = 2 * beNum 256 b % 32 := by omega
  rw [hfinal]

/-- Closed form of the decoder once the per-character lookups succeed: the 18
output bytes are the big-endian bytes of the 145-bit character-stream number
with its lowest bit (the encoder's padding bit) discarded. -/
theorem Base32Encoder.decode_eq (s vals : List Nat)
    (hn : (jsToUpper (jsTrim s)).length = 29)
    (hv : b32Vals (jsToUpper (jsTrim s)) = some vals) :
    Base32Encoder.decode s = some (digitsBE 256 18 (beNum 32 vals / 2)) := by
  obtain ⟨hvlen, hvlt, hvmap, hchars⟩ := b32Vals_some _ vals hv
  have h32 : ((2 : Nat) ^ 5) = 32 := by norm_num
  obtain ⟨vf, hst, hvf⟩ := streamCore_spec 5 8 (by omega) vals 0 0 (by omega)
    (fun x hx => h32 ▸ hvlt x hx)
  rw [hvlen, hn] at hst
  norm_num at hst
  unfold Base32Encoder.decode
  rw [if_neg (by omega), hv]
  simp only [hst]
  rw [if_neg (by simp [digitsBE_length])]

/-- C3 — for every 18-byte array `b`, `encode` succeeds and `decode` of its
output returns `b` byte-for-byte. -/
theorem c3_base32_decode_encode (b : List Nat) (hlen : b.length = 18)
    (hmem : ∀ x ∈ b, x < 256) :
    ∃ s, Base32Encoder.encode b = some s ∧ Base32Encoder.decode s = some b := by
  have hdig : ∀ d ∈ digitsBE 32 29 (2 * beNum 256 b), d < 32 :=
    digitsBE_mem_lt 32 29 _ (by norm_num)
  have henc := Base32Encoder.encode_eq b hlen hmem
  refine ⟨(digitsBE 32 29 (2 * beNum 256 b)).map fun d => alphaCodes.getD d 0,
    henc, ?_⟩
  set ds := digitsBE 32 29 (2 * beNum 256 b) with hds
  set s := ds.map fun d => alphaCodes.getD d 0 with hs
  have hchar : ∀ c ∈ s, jsWhite c = false ∧ jsUpperChar c = c := by
    intro c hc
    rw [hs] at hc
    obtain ⟨d, hd, rfl⟩ := List.mem_map.mp hc
    obtain ⟨_, hw, hu⟩ := alpha_code_props d (hdig d hd)
    exact ⟨hw, hu⟩
  have htrim : jsTrim s = s := jsTrim_eq_self _ (fun c hc => (hchar c hc).1)
  have hupper : jsToUpper s = s := by
    rw [jsToUpper]
    have := List.map_congr_left (l := s) (f := jsUpperChar) (g := id)
      (fun c hc => (hchar c hc).2)
    simpa using this
  have hnorm : jsToUpper (jsTrim s) = s := by rw [htrim, hupper]
  have hslen : s.length = 29 := by
    rw [hs, List.length_map, hds, digitsBE_length]
  have hnlen : (jsToUpper (jsTrim s)).length = 29 := by rw [hnorm, hslen]
  have hvals : b32Vals (jsToUpper (jsTrim s)) = some ds := by
    rw [hnorm, hs]
    exact b32Vals_map ds hdig
  have hdec := Base32Encoder.decode_eq s ds hnlen hvals
  have hNlt : beNum 256 b < 2 ^ 144 := by
    have h1 := beNum_lt 256 b hmem
    rw [hlen] at h1
    have h2 : (256 : Nat) ^ 18 = 2 ^ 144 := by norm_num
    rwa [h2] at h1
  have h2N : beNum 32 ds = 2 * beNum 256 b := by
    rw [hds, beNum_digitsBE]
    have h3 : (32 : Nat) ^ 29 = 2 * 2 ^ 144 := by norm_num
    rw [h3]
    exact Nat.mod_eq_of_lt (by omega)
  rw [h2N] at hdec
  have h4 : 2 * beNum 256 b / 2 = beNum 256 b := by omega
  rw [h4] at hdec
  have hback : digitsBE 256 18 (beNum 256 b) = b := by
    have h5 := digitsBE_beNum 256 b (by norm_num) hmem
    rwa [hlen] at h5
  rw [hdec, hback]

/-- C4 (amended) — string-to-binary round-trip for canonical strings: if the
normalized 29-character alphabet string has its final padding bit zero (the
145-bit character-stream value is even, i.e. the final character encodes an
even value), then `encode (decode s)` returns the normalized form of `s`. -/
theorem c4_encode_decode_canonical (s vals : List Nat)
    (hn : (jsToUpper (jsTrim s)).length = 29)
    (hv : b32Vals (jsToUpper (jsTrim s)) = some vals)
    (heven : beNum 32 vals % 2 = 0) :
    ∃ b, Base32Encoder.decode s = some b ∧
      Base32Encoder.encode b = some (jsToUpper (jsTrim s)) := by
  obtain ⟨hvlen, hvlt, hvmap, _⟩ := b32Vals_some _ vals hv
  rw [hn] at hvlen
  have hdec := Base32Encoder.decode_eq s vals hn hv
  set M := beNum 32 vals with hM
  refine ⟨digitsBE 256 18 (M / 2), hdec, ?_⟩
  have hMlt : M < 2 ^ 145 := by
    have h1 := beNum_lt 32 vals hvlt
    rw [hvlen] at h1
    have h2 : (32 : Nat) ^ 29 = 2 ^ 145 := by norm_num
    rwa [h2] at h1
  have hbmem : ∀ x ∈ digitsBE 256 18 (M / 2), x < 256 :=
    digitsBE_mem_lt 256 18 _ (by norm_num)
  have hblen : (digitsBE 256 18 (M / 2)).length = 18 := digitsBE_length _ _ _
  rw [Base32Encoder.encode_eq _ hblen hbmem]
  have hN : beNum 256 (digitsBE 256 18 (M / 2)) = M / 2 := by
    rw [beNum_digitsBE]
    have h2 : (256 : Nat) ^ 18 = 2 ^ 144 := by norm_num
    rw [h2]
    exact Nat.mod_eq_of_lt (by omega)
  rw [hN]
  have h2M : 2 * (M / 2) = M := by omega
  rw [h2M, hM]
  have hdigs : digitsBE 32 29 (beNum 32 vals) = vals := by
    have h5 := digitsBE_beNum 32 vals (by norm_num) hvlt
    rwa [hvlen] at h5
  rw [hdigs, hvmap]

/-- C4 (counterexample) — the 29-character alphabet string of 28 `A`s followed
by `B` decodes successfully (its set padding bit is discarded), but
re-encoding yields 29 `A`s, not the original normalized string. -/
theorem c4_counterexample :
    (Base32Encoder.decode (List.replicate 28 65 ++ [66])).bind Base32Encoder.encode =
        some (List.replicate 29 65) ∧
      jsToUpper (jsTrim (List.replicate 28 65 ++ [66])) = List.replicate 28 65 ++ [66] ∧
      List.replicate 29 65 ≠ List.replicate 28 65 ++ [66] := by
  refine ⟨by decide, by decide, by decide⟩

/-- C3 (witness) — the all-zero 18-byte binary round-trips. -/
theorem c3_base32_decode_encode_witness :
    (List.replicate 18 0).length = 18 ∧ (∀ x ∈ List.replicate 18 0, x < 256) ∧
      ∃ s, Base32Encoder.encode (List.replicate 18 0) = some s ∧
        Base32Encoder.decode s = some (List.replicate 18 0) :=
  ⟨by decide, by decide, c3_base32_decode_encode (List.replicate 18 0) (by decide) (by decide)⟩

/-- C4 (witness) — the all-`A` string (even final character) round-trips to
itself through decode then encode. -/
theorem c4_encode_decode_canonical_witness :
    (jsToUpper (jsTrim (List.replicate 29 65))).length = 29 ∧
      b32Vals (jsToUpper (jsTrim (List.replicate 29 65))) = some (List.replicate 29 0) ∧
      beNum 32 (List.replicate 29 0) % 2 = 0 ∧
      ∃ b, Base32Encoder.decode (List.replicate 29 65) = some b ∧
        Base32Encoder.encode b = some (jsToUpper (jsTrim (List.replicate 29 65))) :=
  ⟨by decide, by decide, by decide,
    c4_encode_decode_canonical (List.replicate 29 65) (List.replicate 29 0)
      (by decide) (by decide) (by decide)⟩

/-! ## HMACSigner (src/crypto/HMACSigner.ts)

`Uint8Array` arguments are `some bytes`; `none` models an argument that is
not a `Uint8Array` (the `instanceof` guards).  `sign` throws — returns
`none` — on an empty payload or a short secret; `verify` never does. -/

def SIGNATURE_BYTES : Nat := 7

def MIN_SECRET_BYTES : Nat := 32

def MIN_PAYLOAD_BYTES : Nat := 1

/-- `crypto.timingSafeEqual`: throws (`none`) when the lengths differ,
otherwise compares byte-for-byte. -/
def timingSafeEqual (a b : List Nat) : Option Bool :=
  if a.length ≠ b.length then none else some (a == b)

/-- `HMACSigner.sign`: validate, then the first `SIGNATURE_BYTES` bytes of
`HMAC-SHA256(secret, payload)`. -/
def HMACSigner.sign (payload secret : List Nat) : Option (List Nat) :=
  if payload.length < MIN_PAYLOAD_BYTES then none
  else if secret.length < MIN_SECRET_BYTES then none
  else some ((hmacSha256 secret payload).take SIGNATURE_BYTES)

/-- `HMACSigner.verify`: guards return `false`, `sign` is recomputed inside a
try/catch, and the constant-time comparison runs only after an explicit
length equality check. -/
def HMACSigner.verify (payload sig secret : Option (List Nat)) : Option Bool :=
  match payload, sig, secret with
  | some p, some sg, some k =>
    if p.length < MIN_PAYLOAD_BYTES then some false
    else if k.length < MIN_SECRET_BYTES then some false
    else if sg.length ≠ SIGNATURE_BYTES then some false
    else
      match HMACSigner.sign p k with
      | none => some false
      | some expected =>
        if expected.length ≠ sg.length then some false
        else timingSafeEqual expected sg
  | _, _, _ => some false

theorem hmac_take_length (k p : List Nat) : ((hmacSha256 k p).take 7).length = 7 := by
  simp [List.length_take, hmacSha256_length]

/-- Closed form of `verify` on three `Uint8Array` arguments. -/
theorem HMACSigner.verify_some (pb sgb kb : List Nat) :
    HMACSigner.verify (some pb) (some sgb) (some kb) =
      if pb.length < 1 then some false
      else if kb.length < 32 then some false
      else if sgb.length ≠ 7 then some false
      else some ((hmacSha256 kb pb).take 7 == sgb) := by
  simp only [HMACSigner.verify, HMACSigner.sign, SIGNATURE_BYTES, MIN_SECRET_BYTES,
    MIN_PAYLOAD_BYTES]
  split_ifs with h1 h2 h3
  · rfl
  · rfl
  · rfl
  · have hlen : ((hmacSha256 kb pb).take 7).length = 7 := hmac_take_length kb pb
    have hsg7 : sgb.length = 7 := by omega
    simp [timingSafeEqual, hlen, hsg7]

/-- C1 — signing then verifying with the same payload and secret succeeds:
`sign` returns the first 7 bytes of the HMAC-SHA256 digest, and `verify` of
that signature returns `true`. -/
theorem c1_sign_verify_roundtrip (p k : List Nat)
    (hp : 1 ≤ p.length) (_hpb : ∀ x ∈ p, x < 256)
    (hk : 32 ≤ k.length) (_hkb : ∀ x ∈ k, x < 256) :
    HMACSigner.sign p k = some ((hmacSha256 k p).take 7) ∧
      ∀ sg, HMACSigner.sign p k = some sg →
        HMACSigner.verify (some p) (some sg) (some k) = some true := by
  have hsign : HMACSigner.sign p k = some ((hmacSha256 k p).take 7) := by
    simp only [HMACSigner.sign, MIN_PAYLOAD_BYTES, MIN_SECRET_BYTES, SIGNATURE_BYTES]
    rw [if_neg (by omega), if_neg (by omega)]
  refine ⟨hsign, ?_⟩
  intro sg hsg
  rw [hsign] at hsg
  injection hsg with hsg
  subst hsg
  rw [HMACSigner.verify_some, if_neg (by omega), if_neg (by omega),
    if_neg (by rw [hmac_take_length]; omega)]
  simp

/-- C1 (witness) — an all-zero 11-byte payload with an all-zero 32-byte
secret satisfies the hypotheses, so sign-then-verify returns `true`. -/
theorem c1_sign_verify_roundtrip_witness :
    1 ≤ (List.replicate 11 0).length ∧ 32 ≤ (List.replicate 32 0).length ∧
      (HMACSigner.sign (List.replicate 11 0) (List.replicate 32 0) =
        some ((hmacSha256 (List.replicate 32 0) (List.replicate 11 0)).take 7) ∧
      ∀ sg, HMACSigner.sign (List.replicate 11 0) (List.replicate 32 0) = some sg →
        HMACSigner.verify (some (List.replicate 11 0)) (some sg)
          (some (List.replicate 32 0)) = some true) :=
  ⟨by decide, by decide,
    c1_sign_verify_roundtrip (List.replicate 11 0) (List.replicate 32 0)
      (by decide) (by decide) (by decide) (by decide)⟩

/-- C6 — `verify` never throws: it always returns a boolean, and every
structurally invalid input (a non-`Uint8Array` argument, an empty payload, a
secret shorter than 32 bytes, or a signature whose length is not 7) yields
`false` rather than an exception. -/
theorem c6_verify_never_throws (p sg k : Option (List Nat)) :
    (∃ b, HMACSigner.verify p sg k = some b) ∧
      ((p = none ∨ sg = none ∨ k = none) → HMACSigner.verify p sg k = some false) ∧
      (∀ pb sgb kb, p = some pb → sg = some sgb → k = some kb →
        (pb.length = 0 ∨ kb.length < 32 ∨ sgb.length ≠ 7) →
        HMACSigner.verify p sg k = some false) := by
  rcases p with _ | pb <;> rcases sg with _ | sgb <;> rcases k with _ | kb
  case none.none.none | none.none.some | none.some.none | none.some.some
    | some.none.none | some.none.some | some.some.none =>
    refine ⟨⟨false, rfl⟩, fun _ => rfl, ?_⟩
    intro _ _ _ h1 h2 h3 _
    first
    | exact Option.noConfusion h1
    | exact Option.noConfusion h2
    | exact Option.noConfusion h3
  case some.some.some =>
    rw [HMACSigner.verify_some pb sgb kb]
    refine ⟨?_, ?_, ?_⟩
    · split_ifs <;> exact ⟨_, rfl⟩
    · intro h
      rcases h with h | h | h <;> simp at h
    · intro pb2 sgb2 kb2 h1 h2 h3 hbad
      injection h1 with h1
      injection h2 with h2
      injection h3 with h3
      subst h1; subst h2; subst h3
      split_ifs with g1 g2 g3
      · rfl
      · rfl
      · rfl
      · exfalso
        rcases hbad with h | h | h <;> omega

/-- C6 (witness) — an empty payload with a 7-byte signature and 32-byte
secret is structurally invalid and makes `verify` return `false`. -/
theorem c6_verify_never_throws_witness :
    HMACSigner.verify (some []) (some (List.replicate 7 0))
      (some (List.replicate 32 0)) = some false :=
  (c6_verify_never_throws (some []) (some (List.replicate 7 0))
    (some (List.replicate 32 0))).2.2 [] (List.replicate 7 0) (List.replicate 32 0)
    rfl rfl rfl (Or.inl (by decide))

/-! ## VIDGenerator and NodeIdResolver (src/core/VIDGenerator.ts)

The generator's clock source `TimeUtils.now()` is modelled as a stream: each
call pops the next value from a list, and the bounded spin-wait's wall-clock
deadline becomes exhaustion of the (finite) stream.  Thrown errors are
`none`.  `keyVersion` is a `Nat` (the negative / non-integer guard cases lie
outside the domain); an explicit numeric `nodeId` is an `Int` so that the
out-of-range guard covers negative input. -/

def MAX_TIMESTAMP : Nat := 281474976710655

def MAX_UINT16 : Nat := 65535

def MAX_UINT8 : Nat := 255

def PAYLOAD_BYTES : Nat := 11

def VID_TOTAL_BYTES : Nat := PAYLOAD_BYTES + SIGNATURE_BYTES

def MAX_SEQUENCE : Nat := MAX_UINT16

/-- `NodeIdResolver.hashToUint16`: SHA-256 of the UTF-8 bytes, first two
digest bytes big-endian (`(hash[0] << 8) | hash[1]`, written arithmetically
since `hash[1] < 256`). -/
def NodeIdResolver.hashToUint16 (input : List Nat) : Nat :=
  let hash := sha256 (utf8Encode input)
  hash.getD 0 0 * 256 + hash.getD 1 0

inductive NodeIdSource
  | explicit_number
  | explicit_string
  | pod_ip
  | hostname
  | random
deriving DecidableEq

/-- `NodeIdResolution` (the `warning` text is modelled by its presence). -/
structure NodeIdResolution where
  nodeId : Nat
  source : NodeIdSource
  warning : Bool
deriving DecidableEq

/-- `NodeIdResolver.resolve`: the five-step resolution order.  `explicit` is
the optional config value, `podIp`/`hostname` the environment variables
(`none` = unset), `randomVal` the value drawn by `crypto.randomInt(0, 65536)`
in the fallback. -/
def NodeIdResolver.resolve (explicit : Option (Int ⊕ List Nat))
    (podIp hostname : Option (List Nat)) (randomVal : Nat) :
    Option NodeIdResolution :=
  match explicit with
  | some (Sum.inl n) =>
    if 0 ≤ n ∧ n ≤ 65535 then some ⟨n.toNat, NodeIdSource.explicit_number, false⟩
    else none
  | some (Sum.inr s) =>
    if (jsTrim s).length = 0 then none
    else some ⟨NodeIdResolver.hashToUint16 (jsTrim s), NodeIdSource.explicit_string, false⟩
  | none =>
    if podIp.isSome ∧ 0 < (jsTrim (podIp.getD [])).length then
      some ⟨NodeIdResolver.hashToUint16 (jsTrim (podIp.getD [])), NodeIdSource.pod_ip, false⟩
    else if hostname.isSome ∧ 0 < (jsTrim (hostname.getD [])).length then
      some ⟨NodeIdResolver.hashToUint16 (jsTrim (hostname.getD [])), NodeIdSource.hostname, false⟩
    else some ⟨randomVal % 65536, NodeIdSource.random, true⟩

structure VIDGeneratorConfig where
  secret : List Nat
  keyVersion : Nat
  nodeId : Int ⊕ List Nat

/-- Generator state: the two integers owned by one instance, both `0` on a
fresh instance. -/
structure GenState where
  lastTimestamp : Nat
  sequence : Nat
deriving DecidableEq

/-- `VIDGenerator.resolveNodeId` (private helper on the generator). -/
def VIDGenerator.resolveNodeId (nodeId : Int ⊕ List Nat) : Option Nat :=
  match nodeId with
  | Sum.inr s =>
    if (jsTrim s).length = 0 then none
    else some (NodeIdResolver.hashToUint16 (jsTrim s))
  | Sum.inl n =>
    if 0 ≤ n ∧ n ≤ 65535 then some n.toNat else none

/-- `VIDGenerator.validateConfig`: keyVersion in range, secret a non-empty
`Uint8Array` of at least 32 bytes. -/
def VIDGenerator.validateConfig (config : VIDGeneratorConfig) : Bool :=
  decide (config.keyVersion ≤ MAX_UINT8) && decide (config.secret.length ≠ 0) &&
    decide (32 ≤ config.secret.length)

/-- `VIDGenerator.waitForNextMillisecond`: poll the clock until it exceeds
`sinceTimestamp`; the 5-second deadline becomes exhaustion of the stream. -/
def VIDGenerator.waitForNextMillisecond (sinceTimestamp : Nat) :
    List Nat → Option (Nat × List Nat)
  | [] => none
  | t :: rest =>
    if t ≤ sinceTimestamp then VIDGenerator.waitForNextMillisecond sinceTimestamp rest
    else some (t, rest)

/-- `VIDGenerator.nextTimestampAndSequence`: clamp on clock regression,
increment the sequence within the same millisecond, spin-wait on sequence
exhaustion. -/
def VIDGenerator.nextTimestampAndSequence (st : GenState) (clock : List Nat) :
    Option ((Nat × Nat) × GenState × List Nat) :=
  match clock with
  | [] => none
  | t :: rest =>
    let timestamp := if t < st.lastTimestamp then st.lastTimestamp else t
    if timestamp = st.lastTimestamp then
      let seq := st.sequence + 1
      if seq > MAX_SEQUENCE then
        match VIDGenerator.waitForNextMillisecond st.lastTimestamp rest with
        | none => none
        | some (t2, rest2) => some ((t2, 0), ⟨t2, 0⟩, rest2)
      else some ((timestamp, seq), ⟨timestamp, seq⟩, rest)
    else some ((timestamp, 0), ⟨timestamp, 0⟩, rest)

/-- `VIDGenerator.encodePayload`: big-endian field packing via `DataView`
(`setUint8` / `setUint32` / `setUint16` wrap, which `digitsBE` mirrors). -/
def VIDGenerator.encodePayload (keyVersion timestamp nodeId seq : Nat) : List Nat :=
  digitsBE 256 1 keyVersion ++ digitsBE 256 4 (timestamp / 65536) ++
    digitsBE 256 2 (timestamp % 65536) ++ digitsBE 256 2 nodeId ++ digitsBE 256 2 seq

/-- The binary a successful mint produces for given fields: 11-byte payload
followed by the 7-byte truncated HMAC. -/
def VIDGenerator.mkBinary (kv ts nid sq : Nat) (secret : List Nat) : List Nat :=
  VIDGenerator.encodePayload kv ts nid sq ++
    (hmacSha256 secret (VIDGenerator.encodePayload kv ts nid sq)).take 7

/-- `VIDGenerator.generate`: validate, resolve the node id, advance
clock/sequence, 48-bit overflow guard, encode, sign, length-check the
signature, concatenate. -/
def VIDGenerator.generate (config : VIDGeneratorConfig) (st : GenState)
    (clock : List Nat) : Option (List Nat × GenState × List Nat) :=
  if VIDGenerator.validateConfig config = false then none
  else
    match VIDGenerator.resolveNodeId config.nodeId with
    | none => none
    | some resolvedNodeId =>
      match VIDGenerator.nextTimestampAndSequence st clock with
      | none => none
      | some ((timestamp, seq), st2, clock2) =>
        if timestamp > MAX_TIMESTAMP then none
        else
          match HMACSigner.sign
              (VIDGenerator.encodePayload config.keyVersion timestamp resolvedNodeId seq)
              config.secret with
          | none => none
          | some sig =>
            if sig.length ≠ SIGNATURE_BYTES then none
            else some
              (VIDGenerator.encodePayload config.keyVersion timestamp resolvedNodeId seq ++ sig,
               st2, clock2)

/-- `n` successive `generate` calls on one instance, threading the state and
the clock stream. -/
def VIDGenerator.generateN (config : VIDGeneratorConfig) :
    Nat → GenState → List Nat → Option (List (List Nat) × GenState × List Nat)
  | 0, st, clock => some ([], st, clock)
  | n + 1, st, clock =>
    match VIDGenerator.generate config st clock with
    | none => none
    | some (bin, st2, clock2) =>
      match VIDGenerator.generateN config n st2 clock2 with
      | none => none
      | some (bins, st3, clock3) => some (bin :: bins, st3, clock3)

/-- The crypto-free projection of a run: just the (timestamp, sequence)
pairs `nextTimestampAndSequence` hands out, with the same overflow guard. -/
def VIDGenerator.runTS :
    Nat → GenState → List Nat → Option (List (Nat × Nat) × GenState × List Nat)
  | 0, st, clock => some ([], st, clock)
  | n + 1, st, clock =>
    match VIDGenerator.nextTimestampAndSequence st clock with
    | none => none
    | some (p, st2, clock2) =>
      if p.1 > MAX_TIMESTAMP then none
      else
        match VIDGenerator.runTS n st2 clock2 with
        | none => none
        | some (ps, st3, clock3) => some (p :: ps, st3, clock3)

/-- Strict lexicographic order on (timestamp, sequence) pairs. -/
def pairLt (a b : Nat × Nat) : Prop :=
  a.1 < b.1 ∨ (a.1 = b.1 ∧ a.2 < b.2)

theorem waitForNextMillisecond_gt (since : Nat) :
    ∀ (l : List Nat) (t2 : Nat) (rest2 : List Nat),
      VIDGenerator.waitForNextMillisecond since l = some (t2, rest2) → since < t2 := by
  intro l
  induction l with
  | nil => intro t2 rest2 h; exact absurd h (by simp [VIDGenerator.waitForNextMillisecond])
  | cons t rest ih =>
    intro t2 rest2 h
    rw [VIDGenerator.waitForNextMillisecond] at h
    split_ifs at h with hle
    · exact ih t2 rest2 h
    · injection h with h1
      injection h1 with h1 h2
      omega

/-- One successful step strictly increases the (timestamp, sequence) pair,
commits it as the new state, and keeps the sequence within 16 bits. -/
theorem nextTimestampAndSequence_step (st : GenState) (clock : List Nat)
    (p : Nat × Nat) (st2 : GenState) (clock2 : List Nat)
    (h : VIDGenerator.nextTimestampAndSequence st clock = some (p, st2, clock2)) :
    pairLt (st.lastTimestamp, st.sequence) p ∧ st2 = ⟨p.1, p.2⟩ ∧ p.2 ≤ 65535 := by
  cases clock with
  | nil => exact absurd h (by simp [VIDGenerator.nextTimestampAndSequence])
  | cons t rest =>
    rw [VIDGenerator.nextTimestampAndSequence] at h
    simp only at h
    by_cases heq : (if t < st.lastTimestamp then st.lastTimestamp else t) = st.lastTimestamp
    · rw [if_pos heq] at h
      by_cases hover : st.sequence + 1 > MAX_SEQUENCE
      · rw [if_pos hover] at h
        rcases hwait : VIDGenerator.waitForNextMillisecond st.lastTimestamp rest with _ | tr
        · rw [hwait] at h
          exact absurd h (by simp)
        · rw [hwait] at h
          injection h with h1
          injection h1 with hp h2
          injection h2 with hst _
          have hgt := waitForNextMillisecond_gt st.lastTimestamp rest tr.1 tr.2 (by rw [hwait])
          subst hp
          refine ⟨Or.inl hgt, by rw [← hst], by omega⟩
      · rw [if_neg hover] at h
        injection h with h1
        injection h1 with hp h2
        injection h2 with hst _
        subst hp
        simp only [MAX_SEQUENCE, MAX_UINT16] at hover
        exact ⟨Or.inr ⟨heq.symm, by omega⟩, by rw [← hst], by omega⟩
    · rw [if_neg heq] at h
      injection h with h1
      injection h1 with hp h2
      injection h2 with hst _
      have hgt : st.lastTimestamp < (if t < st.lastTimestamp then st.lastTimestamp else t) := by
        split_ifs at heq ⊢ with hc
        · omega
        · omega
      subst hp
      exact ⟨Or.inl hgt, by rw [← hst], by omega⟩

theorem pairLt_trans (a b c : Nat × Nat) (h1 : pairLt a b) (h2 : pairLt b c) :
    pairLt a c := by
  rcases h1 with h1 | ⟨h1a, h1b⟩ <;> rcases h2 with h2 | ⟨h2a, h2b⟩ <;>
    simp only [pairLt] <;> omega

/-- A successful `runTS` emits a chain of strictly increasing pairs starting
above the initial state, all within the 48-bit / 16-bit field bounds. -/
theorem runTS_spec :
    ∀ (n : Nat) (st : GenState) (clock : List Nat) (ps : List (Nat × Nat))
      (st3 : GenState) (clock3 : List Nat),
      VIDGenerator.runTS n st clock = some (ps, st3, clock3) →
        List.Chain pairLt (st.lastTimestamp, st.sequence) ps ∧
          ∀ q ∈ ps, q.1 ≤ MAX_TIMESTAMP ∧ q.2 ≤ 65535 := by
  intro n
  induction n with
  | zero =>
    intro st clock ps st3 clock3 h
    rw [VIDGenerator.runTS] at h
    injection h with h1
    injection h1 with hps _
    subst hps
    exact ⟨List.Chain.nil, by simp⟩
  | succ n ih =>
    intro st clock ps st3 clock3 h
    rw [VIDGenerator.runTS] at h
    rcases hstep : VIDGenerator.nextTimestampAndSequence st clock with _ | psc
    · rw [hstep] at h
      exact absurd h (by simp)
    obtain ⟨p, st2, clock2⟩ := psc
    rw [hstep] at h
    simp only at h
    split_ifs at h with hmax
    rcases hrun : VIDGenerator.runTS n st2 clock2 with _ | tr
    · rw [hrun] at h
      exact absurd h (by simp)
    obtain ⟨ps2, st3b, clock3b⟩ := tr
    rw [hrun] at h
    injection h with h1
    injection h1 with hps h2
    subst hps
    obtain ⟨hlt, hst2, hseq⟩ := nextTimestampAndSequence_step st clock p st2 clock2 hstep
    obtain ⟨hchain, hbounds⟩ := ih st2 clock2 ps2 st3b clock3b hrun
    rw [hst2] at hchain
    refine ⟨List.Chain.cons hlt ?_, ?_⟩
    · exact hchain
    · intro q hq
      rcases List.mem_cons.mp hq with rfl | hq
      · exact ⟨by omega, hseq⟩
      · exact hbounds q hq

theorem encodePayload_length (kv ts nid sq : Nat) :
    (VIDGenerator.encodePayload kv ts nid sq).length = 11 := by
  simp [VIDGenerator.encodePayload, digitsBE_length]

theorem mkBinary_length (kv ts nid sq : Nat) (secret : List Nat) :
    (VIDGenerator.mkBinary kv ts nid sq secret).length = 18 := by
  simp [VIDGenerator.mkBinary, encodePayload_length, List.length_take, hmacSha256_length]

/-- Strictly increasing pairs give strictly lexicographically increasing
binaries (same key version, node id and secret; fields in range). -/
theorem mkBinary_lt (kv nid : Nat) (secret : List Nat) (p q : Nat × Nat)
    (_hp1 : p.1 ≤ MAX_TIMESTAMP) (_hp2 : p.2 ≤ 65535)
    (hq1 : q.1 ≤ MAX_TIMESTAMP) (hq2 : q.2 ≤ 65535) (hlt : pairLt p q) :
    bytesLtB (VIDGenerator.mkBinary kv p.1 nid p.2 secret)
      (VIDGenerator.mkBinary kv q.1 nid q.2 secret) = true := by
  have hts : ∀ ts : Nat,
      digitsBE 256 4 (ts / 65536) ++ digitsBE 256 2 (ts % 65536) = digitsBE 256 6 ts := by
    intro ts
    have h2 : (65536 : Nat) = 256 ^ 2 := by norm_num
    rw [h2, digitsBE_mod, show (6 : Nat) = 4 + 2 from by norm_num, digitsBE_append]
  have h2566 : (256 : Nat) ^ 6 = 281474976710656 := by norm_num
  have h2562 : (256 : Nat) ^ 2 = 65536 := by norm_num
  simp only [VIDGenerator.mkBinary, VIDGenerator.encodePayload]
  rcases hlt with hlt | ⟨heq, hlt⟩
  · -- timestamps differ: the 6 timestamp bytes decide the comparison
    simp only [List.append_assoc]
    rw [bytesLtB_append_same,
      ← List.append_assoc (digitsBE 256 4 (p.1 / 65536)),
      ← List.append_assoc (digitsBE 256 4 (q.1 / 65536)),
      hts p.1, hts q.1]
    exact bytesLtB_append_of_lt _ _ _ _ (by simp [digitsBE_length])
      (digitsBE_lt_digitsBE 256 6 p.1 q.1 (by norm_num) hlt
        (by simp only [MAX_TIMESTAMP] at hq1; omega))
  · -- same timestamp: the 2 sequence bytes decide the comparison
    rw [heq]
    simp only [List.append_assoc]
    rw [bytesLtB_append_same, bytesLtB_append_same, bytesLtB_append_same,
      bytesLtB_append_same]
    exact bytesLtB_append_of_lt _ _ _ _ (by simp [digitsBE_length])
      (digitsBE_lt_digitsBE 256 2 p.2 q.2 (by norm_num) hlt (by omega))

/-- On a valid configuration, `generate` is the crypto-free step plus the
total binary constructor (the sign call cannot fail and the signature length
guard always passes). -/
theorem generate_eq (config : VIDGeneratorConfig)
    (hval : VIDGenerator.validateConfig config = true)
    (nid : Nat) (hnid : VIDGenerator.resolveNodeId config.nodeId = some nid)
    (st : GenState) (clock : List Nat) :
    VIDGenerator.generate config st clock =
      match VIDGenerator.nextTimestampAndSequence st clock with
      | none => none
      | some ((ts, sq), st2, clock2) =>
        if ts > MAX_TIMESTAMP then none
        else some (VIDGenerator.mkBinary config.keyVersion ts nid sq config.secret,
          st2, clock2) := by
  have hsec : 32 ≤ config.secret.length := by
    simp only [VIDGenerator.validateConfig, Bool.and_eq_true, decide_eq_true_eq] at hval
    exact hval.2
  rw [VIDGenerator.generate, if_neg (by rw [hval]; simp), hnid]
  rcases hstep : VIDGenerator.nextTimestampAndSequence st clock with _ | t
  · rfl
  obtain ⟨⟨ts, sq⟩, st2, clock2⟩ := t
  simp only
  split_ifs with hmax
  · rfl
  have hsign : HMACSigner.sign (VIDGenerator.encodePayload config.keyVersion ts nid sq)
      config.secret =
      some ((hmacSha256 config.secret
        (VIDGenerator.encodePayload config.keyVersion ts nid sq)).take 7) := by
    simp only [HMACSigner.sign, MIN_PAYLOAD_BYTES, MIN_SECRET_BYTES, SIGNATURE_BYTES]
    rw [if_neg (by rw [encodePayload_length]; omega), if_neg (by omega)]
  rw [hsign]
  simp only [SIGNATURE_BYTES]
  rw [if_neg (by rw [hmac_take_length]; omega)]
  rfl

/-- `generateN` is `runTS` with each emitted pair turned into its binary. -/
theorem generateN_eq_runTS (config : VIDGeneratorConfig)
    (hval : VIDGenerator.validateConfig config = true)
    (nid : Nat) (hnid : VIDGenerator.resolveNodeId config.nodeId = some nid) :
    ∀ (n : Nat) (st : GenState) (clock : List Nat),
      VIDGenerator.generateN config n st clock =
        (VIDGenerator.runTS n st clock).map fun t =>
          (t.1.map fun p => VIDGenerator.mkBinary config.keyVersion p.1 nid p.2 config.secret,
           t.2.1, t.2.2) := by
  intro n
  induction n with
  | zero => intro st clock; rfl
  | succ n ih =>
    intro st clock
    rw [VIDGenerator.generateN, VIDGenerator.runTS,
      generate_eq config hval nid hnid st clock]
    rcases hstep : VIDGenerator.nextTimestampAndSequence st clock with _ | t
    · rfl
    obtain ⟨⟨ts, sq⟩, st2, clock2⟩ := t
    simp only
    split_ifs with hmax
    · rfl
    show (match VIDGenerator.generateN config n st2 clock2 with
      | none => none
      | some (bins, st3, clock3) =>
        some (VIDGenerator.mkBinary config.keyVersion ts nid sq config.secret :: bins,
          st3, clock3)) =
      Option.map (fun t =>
        (t.1.map fun p => VIDGenerator.mkBinary config.keyVersion p.1 nid p.2 config.secret,
         t.2.1, t.2.2))
        (match VIDGenerator.runTS n st2 clock2 with
         | none => none
         | some (ps, st3, clock3) => some ((ts, sq) :: ps, st3, clock3))
    rw [ih st2 clock2]
    rcases VIDGenerator.runTS n st2 clock2 with _ | ⟨ps, st3, clock3⟩
    · rfl
    · rfl

theorem hashToUint16_lt (s : List Nat) : NodeIdResolver.hashToUint16 s < 65536 := by
  have hlen := sha256_length (utf8Encode s)
  have hmem := sha256_mem_lt (utf8Encode s)
  have h0 : (sha256 (utf8Encode s)).getD 0 0 < 256 := by
    apply hmem
    rw [List.getD_eq_getElem?_getD, List.getElem?_eq_getElem (by omega)]
    exact List.getElem_mem _
  have h1 : (sha256 (utf8Encode s)).getD 1 0 < 256 := by
    apply hmem
    rw [List.getD_eq_getElem?_getD, List.getElem?_eq_getElem (by omega)]
    exact List.getElem_mem _
  simp only [NodeIdResolver.hashToUint16]
  omega

theorem resolveNodeId_le (nodeId : Int ⊕ List Nat) (nid : Nat)
    (h : VIDGenerator.resolveNodeId nodeId = some nid) : nid ≤ 65535 := by
  rcases nodeId with n | s
  · rw [VIDGenerator.resolveNodeId] at h
    split_ifs at h with hr
    injection h with h
    omega
  · rw [VIDGenerator.resolveNodeId] at h
    split_ifs at h with hr
    injection h with h
    have := hashToUint16_lt (jsTrim s)
    omega

theorem pairwise_mkBinary (kv nid : Nat) (secret : List Nat) :
    ∀ ps : List (Nat × Nat), List.Pairwise pairLt ps →
      (∀ q ∈ ps, q.1 ≤ MAX_TIMESTAMP ∧ q.2 ≤ 65535) →
      List.Pairwise (fun a b => bytesLtB a b = true)
        (ps.map fun p => VIDGenerator.mkBinary kv p.1 nid p.2 secret) := by
  intro ps
  induction ps with
  | nil => intro _ _; simp
  | cons p rest ih =>
    intro hpw hb
    obtain ⟨hhead, htail⟩ := List.pairwise_cons.mp hpw
    rw [List.map_cons, List.pairwise_cons]
    refine ⟨?_, ih htail (fun q hq => hb q (by simp [hq]))⟩
    intro y hy
    obtain ⟨q, hq, rfl⟩ := List.mem_map.mp hy
    obtain ⟨hp1, hp2⟩ := hb p (by simp)
    obtain ⟨hq1, hq2⟩ := hb q (by simp [hq])
    exact mkBinary_lt kv nid secret p q hp1 hp2 hq1 hq2 (hhead q hq)

instance : IsTrans (Nat × Nat) pairLt := ⟨fun a b c => pairLt_trans a b c⟩

/-- C2 — N successive successful `generate` calls on one fresh generator
instance produce strictly lexicographically increasing (timestamp, sequence)
pairs, and the big-endian byte-wise sort order of the returned 18-byte
binaries equals the call order (same keyVersion, nodeId and secret
throughout; the clock stream is non-decreasing as the claim assumes). -/
theorem c2_monotonic_mint (config : VIDGeneratorConfig) (n : Nat) (clock : List Nat)
    (_hclock : List.Chain' (· ≤ ·) clock)
    (hval : VIDGenerator.validateConfig config = true)
    (nid : Nat) (hnid : VIDGenerator.resolveNodeId config.nodeId = some nid)
    (ps : List (Nat × Nat)) (st3 : GenState) (clock3 : List Nat)
    (hrun : VIDGenerator.runTS n ⟨0, 0⟩ clock = some (ps, st3, clock3)) :
    VIDGenerator.generateN config n ⟨0, 0⟩ clock =
        some (ps.map (fun p => VIDGenerator.mkBinary config.keyVersion p.1 nid p.2 config.secret),
          st3, clock3) ∧
      List.Pairwise pairLt ps ∧
      List.Pairwise (fun a b => bytesLtB a b = true)
        (ps.map fun p => VIDGenerator.mkBinary config.keyVersion p.1 nid p.2 config.secret) := by
  obtain ⟨hchain, hbounds⟩ := runTS_spec n ⟨0, 0⟩ clock ps st3 clock3 hrun
  have hpw : List.Pairwise pairLt ps :=
    (List.pairwise_cons.mp (List.chain_iff_pairwise.mp hchain)).2
  refine ⟨?_, hpw, pairwise_mkBinary _ _ _ ps hpw hbounds⟩
  rw [generateN_eq_runTS config hval nid hnid n ⟨0, 0⟩ clock, hrun]
  rfl

/-- C2 (witness) — three calls with clock values t, t, t+1: the pairs are
(t, 1), (t, 2), (t+1, 0), strictly increasing, and the three binaries sort
in call order. -/
theorem c2_monotonic_mint_witness :
    List.Chain' (· ≤ ·) [1700000000000, 1700000000000, 1700000000001] ∧
      VIDGenerator.validateConfig ⟨List.replicate 32 7, 1, Sum.inl 5⟩ = true ∧
      VIDGenerator.resolveNodeId (Sum.inl 5 : Int ⊕ List Nat) = some 5 ∧
      VIDGenerator.runTS 3 ⟨0, 0⟩ [1700000000000, 1700000000000, 1700000000001] =
        some ([(1700000000000, 0), (1700000000000, 1), (1700000000001, 0)], ⟨1700000000001, 0⟩, []) ∧
      (VIDGenerator.generateN ⟨List.replicate 32 7, 1, Sum.inl 5⟩ 3 ⟨0, 0⟩
          [1700000000000, 1700000000000, 1700000000001] =
          some ([(1700000000000, 0), (1700000000000, 1), (1700000000001, 0)].map
              (fun p => VIDGenerator.mkBinary 1 p.1 5 p.2 (List.replicate 32 7)),
            ⟨1700000000001, 0⟩, []) ∧
        List.Pairwise pairLt [(1700000000000, 0), (1700000000000, 1), (1700000000001, 0)] ∧
        List.Pairwise (fun a b => bytesLtB a b = true)
          ([(1700000000000, 0), (1700000000000, 1), (1700000000001, 0)].map
            fun p => VIDGenerator.mkBinary 1 p.1 5 p.2 (List.replicate 32 7))) :=
  ⟨by norm_num [List.chain'_cons], by decide, by decide, by decide,
    c2_monotonic_mint ⟨List.replicate 32 7, 1, Sum.inl 5⟩ 3
      [1700000000000, 1700000000000, 1700000000001] (by norm_num [List.chain'_cons])
      (by decide) 5 (by decide)
      [(1700000000000, 0), (1700000000000, 1), (1700000000001, 0)] ⟨1700000000001, 0⟩ []
      (by decide)⟩

/-! ## VIDVerifier (src/core/VIDVerifier.ts)

The keys `Map<number, Uint8Array>` is an entry list with `Map.get` as
`List.lookup`.  `verifyDetailed` returns `none` only for the exceptions
`validateKeys` throws on an invalid keys argument. -/

inductive VerifyFailureReason
  | NULL_INPUT
  | UNSUPPORTED_TYPE
  | INVALID_STRING_LENGTH
  | INVALID_STRING_CHARS
  | INVALID_BINARY_LENGTH
  | UNKNOWN_KEY_VERSION
  | SIGNATURE_MISMATCH
  | DECODE_ERROR
deriving DecidableEq

inductive VerifyResult
  | valid
  | invalid (reason : VerifyFailureReason)
deriving DecidableEq

/-- The accepted input representations: `null`/`undefined`, a `VIDValue`
(carrying its wrapped 18 bytes), a string, raw bytes (`Uint8Array`, `Buffer`
or `ArrayBuffer` — all normalize to the same byte view), or any other
value. -/
inductive VerifyInput
  | nullInput
  | vidValue (binary : List Nat)
  | str (s : List Nat)
  | bytes (b : List Nat)
  | unsupported

/-- `BASE32_REGEX.test`: the anchored `/^[A-Z2-7]{29}$/`. -/
def BASE32_REGEX_test (s : List Nat) : Bool :=
  (s.length == 29) && s.all fun c => (65 ≤ c && c ≤ 90) || (50 ≤ c && c ≤ 55)

def VIDVerifier.normalizeToBinary :
    VerifyInput → Except VerifyFailureReason (List Nat)
  | VerifyInput.nullInput => Except.error VerifyFailureReason.NULL_INPUT
  | VerifyInput.vidValue binary => Except.ok binary
  | VerifyInput.str s =>
    let trimmed := jsToUpper (jsTrim s)
    if trimmed.length ≠ 29 then Except.error VerifyFailureReason.INVALID_STRING_LENGTH
    else if BASE32_REGEX_test trimmed = false then
      Except.error VerifyFailureReason.INVALID_STRING_CHARS
    else
      match Base32Encoder.decode trimmed with
      | some binary => Except.ok binary
      | none => Except.error VerifyFailureReason.DECODE_ERROR
  | VerifyInput.bytes b => Except.ok b
  | VerifyInput.unsupported => Except.error VerifyFailureReason.UNSUPPORTED_TYPE

/-- `validateKeys`: non-empty map, every version in 0–255, every secret a
non-empty `Uint8Array` of at least 32 bytes. -/
def VIDVerifier.validateKeys (keys : List (Nat × List Nat)) : Bool :=
  decide (keys.length ≠ 0) &&
    keys.all fun e => decide (e.1 ≤ 255) && decide (e.2.length ≠ 0) &&
      decide (32 ≤ e.2.length)

def VIDVerifier.verifyDetailed (input : VerifyInput)
    (keys : List (Nat × List Nat)) : Option VerifyResult :=
  if VIDVerifier.validateKeys keys = false then none
  else
    match VIDVerifier.normalizeToBinary input with
    | Except.error r => some (VerifyResult.invalid r)
    | Except.ok binary =>
      if binary.length ≠ 18 then
        some (VerifyResult.invalid VerifyFailureReason.INVALID_BINARY_LENGTH)
      else
        match List.lookup (binary.getD 0 0) keys with
        | none => some (VerifyResult.invalid VerifyFailureReason.UNKNOWN_KEY_VERSION)
        | some secret =>
          if secret.length = 0 then
            some (VerifyResult.invalid VerifyFailureReason.UNKNOWN_KEY_VERSION)
          else
            match HMACSigner.verify (some (binary.take 11))
                (some ((binary.drop 11).take 7)) (some secret) with
            | none => none
            | some false => some (VerifyResult.invalid VerifyFailureReason.SIGNATURE_MISMATCH)
            | some true => some VerifyResult.valid

/-- A successful mint determines its binary: the config was valid, the
fields are in range, and the binary is `mkBinary` of the emitted pair. -/
theorem generate_shape (config : VIDGeneratorConfig) (st : GenState)
    (clock : List Nat) (bin : List Nat) (st2 : GenState) (clock2 : List Nat)
    (h : VIDGenerator.generate config st clock = some (bin, st2, clock2)) :
    ∃ ts sq nid, VIDGenerator.validateConfig config = true ∧
      VIDGenerator.resolveNodeId config.nodeId = some nid ∧
      ts ≤ MAX_TIMESTAMP ∧ sq ≤ 65535 ∧ nid ≤ 65535 ∧
      bin = VIDGenerator.mkBinary config.keyVersion ts nid sq config.secret := by
  have hval : VIDGenerator.validateConfig config = true := by
    by_contra hv
    rw [VIDGenerator.generate, if_pos (by simp [Bool.not_eq_true] at hv; exact hv)] at h
    exact Option.noConfusion h
  rcases hnid : VIDGenerator.resolveNodeId config.nodeId with _ | nid
  · rw [VIDGenerator.generate, if_neg (by rw [hval]; simp), hnid] at h
    exact Option.noConfusion h
  rw [generate_eq config hval nid hnid st clock] at h
  rcases hstep : VIDGenerator.nextTimestampAndSequence st clock with _ | t
  · rw [hstep] at h
    exact Option.noConfusion h
  obtain ⟨⟨ts, sq⟩, st2b, clock2b⟩ := t
  rw [hstep] at h
  simp only at h
  split_ifs at h with hmax
  injection h with h1
  injection h1 with hbin _
  obtain ⟨_, _, hseq⟩ := nextTimestampAndSequence_step st clock (ts, sq) st2b clock2b hstep
  exact ⟨ts, sq, nid, hval, rfl, by omega, hseq, resolveNodeId_le _ nid hnid, hbin.symm⟩

/-- Verifying a freshly minted binary against its own secret recomputes the
same truncated HMAC. -/
theorem verify_mkBinary (kv ts nid sq : Nat) (secret : List Nat)
    (hsec : 32 ≤ secret.length) :
    HMACSigner.verify (some ((VIDGenerator.mkBinary kv ts nid sq secret).take 11))
      (some (((VIDGenerator.mkBinary kv ts nid sq secret).drop 11).take 7))
      (some secret) = some true := by
  have hplen := encodePayload_length kv ts nid sq
  have htake : (VIDGenerator.mkBinary kv ts nid sq secret).take 11 =
      VIDGenerator.encodePayload kv ts nid sq := by
    rw [VIDGenerator.mkBinary, ← hplen, List.take_left]
  have hdrop : (VIDGenerator.mkBinary kv ts nid sq secret).drop 11 =
      (hmacSha256 secret (VIDGenerator.encodePayload kv ts nid sq)).take 7 := by
    rw [VIDGenerator.mkBinary, ← hplen, List.drop_left]
  rw [htake, hdrop, List.take_take]
  norm_num
  rw [HMACSigner.verify_some, if_neg (by omega), if_neg (by omega),
    if_neg (by rw [hmac_take_length]; omega)]
  simp

theorem mkBinary_head (kv ts nid sq : Nat) (secret : List Nat) (hkv : kv ≤ 255) :
    (VIDGenerator.mkBinary kv ts nid sq secret).getD 0 0 = kv := by
  have h1 : digitsBE 256 1 kv = [kv % 256] := by simp [digitsBE]
  rw [VIDGenerator.mkBinary, VIDGenerator.encodePayload, h1]
  simp [Nat.mod_eq_of_lt (by omega : kv < 256)]

/-- C5 — an identifier minted under `keyVersion` v verifies as `valid`
against any valid keyset whose map contains v with the minting secret
(whatever other versions it holds), and fails with `UNKNOWN_KEY_VERSION`
against any valid keyset whose map has no entry for v; the verifier selects
the secret by looking up byte 0 of the 18-byte binary. -/
theorem c5_key_rotation (config : VIDGeneratorConfig) (st : GenState)
    (clock : List Nat) (bin : List Nat) (st2 : GenState) (clock2 : List Nat)
    (hgen : VIDGenerator.generate config st clock = some (bin, st2, clock2))
    (keys keys2 : List (Nat × List Nat))
    (hkeys : VIDVerifier.validateKeys keys = true)
    (hlookup : List.lookup config.keyVersion keys = some config.secret)
    (hkeys2 : VIDVerifier.validateKeys keys2 = true)
    (hlookup2 : List.lookup config.keyVersion keys2 = none) :
    bin.getD 0 0 = config.keyVersion ∧
      VIDVerifier.verifyDetailed (VerifyInput.bytes bin) keys = some VerifyResult.valid ∧
      VIDVerifier.verifyDetailed (VerifyInput.bytes bin) keys2 =
        some (VerifyResult.invalid VerifyFailureReason.UNKNOWN_KEY_VERSION) := by
  obtain ⟨ts, sq, nid, hval, _, _, _, _, hbin⟩ :=
    generate_shape config st clock bin st2 clock2 hgen
  have hcfg : config.keyVersion ≤ 255 ∧ 32 ≤ config.secret.length := by
    simp only [VIDGenerator.validateConfig, MAX_UINT8, Bool.and_eq_true,
      decide_eq_true_eq] at hval
    exact ⟨hval.1.1, hval.2⟩
  have hhead : bin.getD 0 0 = config.keyVersion := by
    rw [hbin]
    exact mkBinary_head _ _ _ _ _ hcfg.1
  have hlen : bin.length = 18 := by rw [hbin]; exact mkBinary_length _ _ _ _ _
  refine ⟨hhead, ?_, ?_⟩
  · rw [VIDVerifier.verifyDetailed, if_neg (by rw [hkeys]; simp),
      VIDVerifier.normalizeToBinary]
    simp only
    rw [if_neg (by omega), hhead, hlookup]
    simp only
    rw [if_neg (by omega), hbin, verify_mkBinary _ _ _ _ _ hcfg.2]
  · rw [VIDVerifier.verifyDetailed, if_neg (by rw [hkeys2]; simp),
      VIDVerifier.normalizeToBinary]
    simp only
    rw [if_neg (by omega), hhead, hlookup2]

/-- C5 (witness) — a mint at keyVersion 1 verifies against a keyset holding
versions 1 and 2, and fails with `UNKNOWN_KEY_VERSION` against a keyset
holding only version 2. -/
theorem c5_key_rotation_witness :
    VIDGenerator.generate ⟨List.replicate 32 7, 1, Sum.inl 5⟩ ⟨0, 0⟩ [1700000000000] =
        some (VIDGenerator.mkBinary 1 1700000000000 5 0 (List.replicate 32 7),
          ⟨1700000000000, 0⟩, []) ∧
      ((VIDGenerator.mkBinary 1 1700000000000 5 0 (List.replicate 32 7)).getD 0 0 = 1 ∧
        VIDVerifier.verifyDetailed
          (VerifyInput.bytes (VIDGenerator.mkBinary 1 1700000000000 5 0 (List.replicate 32 7)))
          [(1, List.replicate 32 7), (2, List.replicate 32 9)] = some VerifyResult.valid ∧
        VIDVerifier.verifyDetailed
          (VerifyInput.bytes (VIDGenerator.mkBinary 1 1700000000000 5 0 (List.replicate 32 7)))
          [(2, List.replicate 32 9)] =
          some (VerifyResult.invalid VerifyFailureReason.UNKNOWN_KEY_VERSION)) := by
  have hgen : VIDGenerator.generate ⟨List.replicate 32 7, 1, Sum.inl 5⟩ ⟨0, 0⟩
      [1700000000000] =
      some (VIDGenerator.mkBinary 1 1700000000000 5 0 (List.replicate 32 7),
        ⟨1700000000000, 0⟩, []) := by
    rw [generate_eq ⟨List.replicate 32 7, 1, Sum.inl 5⟩ (by decide) 5 (by decide)]
    have hstep : VIDGenerator.nextTimestampAndSequence ⟨0, 0⟩ [1700000000000] =
        some ((1700000000000, 0), ⟨1700000000000, 0⟩, []) := by decide
    rw [hstep]
    simp only
    rw [if_neg (by decide)]
  exact ⟨hgen,
    c5_key_rotation ⟨List.replicate 32 7, 1, Sum.inl 5⟩ ⟨0, 0⟩ [1700000000000]
      (VIDGenerator.mkBinary 1 1700000000000 5 0 (List.replicate 32 7))
      ⟨1700000000000, 0⟩ [] hgen
      [(1, List.replicate 32 7), (2, List.replicate 32 9)] [(2, List.replicate 32 9)]
      (by decide) (by decide) (by decide) (by decide)⟩

/-- The UTF-16 code units of the 12-character string `not-base32!!`. -/
def notBase32 : List Nat := [110, 111, 116, 45, 98, 97, 115, 101, 51, 50, 33, 33]

/-- C7 (amended) — against any valid non-empty keyset, `verifyDetailed` of
the 12-character string `not-base32!!` fails with `INVALID_STRING_LENGTH`
(the length guard runs before the character-set guard, and 12 ≠ 29), and of
a 17-byte all-zero array fails with `INVALID_BINARY_LENGTH`. -/
theorem c7_malformed_inputs (keys : List (Nat × List Nat))
    (hkeys : VIDVerifier.validateKeys keys = true) :
    VIDVerifier.verifyDetailed (VerifyInput.str notBase32) keys =
        some (VerifyResult.invalid VerifyFailureReason.INVALID_STRING_LENGTH) ∧
      VIDVerifier.verifyDetailed (VerifyInput.bytes (List.replicate 17 0)) keys =
        some (VerifyResult.invalid VerifyFailureReason.INVALID_BINARY_LENGTH) := by
  constructor
  · rw [VIDVerifier.verifyDetailed, if_neg (by rw [hkeys]; simp)]
    rfl
  · rw [VIDVerifier.verifyDetailed, if_neg (by rw [hkeys]; simp)]
    rfl

/-- C7 (counterexample) — the claim expects `INVALID_STRING_CHARS` for
`not-base32!!`, but the code's length guard fires first: on a concrete valid
keyset the result is `INVALID_STRING_LENGTH`, a different reason. -/
theorem c7_counterexample :
    VIDVerifier.validateKeys [(1, List.replicate 32 0)] = true ∧
      VIDVerifier.verifyDetailed (VerifyInput.str notBase32) [(1, List.replicate 32 0)] =
        some (VerifyResult.invalid VerifyFailureReason.INVALID_STRING_LENGTH) ∧
      VerifyFailureReason.INVALID_STRING_LENGTH ≠ VerifyFailureReason.INVALID_STRING_CHARS :=
  ⟨by decide, by decide, by decide⟩

/-- C7 (witness) — the amended behaviour at a concrete valid keyset. -/
theorem c7_malformed_inputs_witness :
    VIDVerifier.validateKeys [(1, List.replicate 32 5)] = true ∧
      (VIDVerifier.verifyDetailed (VerifyInput.str notBase32) [(1, List.replicate 32 5)] =
          some (VerifyResult.invalid VerifyFailureReason.INVALID_STRING_LENGTH) ∧
        VIDVerifier.verifyDetailed (VerifyInput.bytes (List.replicate 17 0))
          [(1, List.replicate 32 5)] =
          some (VerifyResult.invalid VerifyFailureReason.INVALID_BINARY_LENGTH)) :=
  ⟨by decide, c7_malformed_inputs [(1, List.replicate 32 5)] (by decide)⟩

/-- C8 — explicit node-identity resolution: a non-empty (post-trim) string
resolves to the SHA-256-derived uint16 of the trimmed string, deterministic
and below 2^16; an in-range integer is used verbatim; an empty or
whitespace-only string and an out-of-range number throw instead of falling
through to the environment or random steps (whatever the environment
holds). -/
theorem c8_node_id_resolution (s : List Nat) (n : Int)
    (podIp hostname : Option (List Nat)) (randomVal : Nat) :
    ((jsTrim s).length ≠ 0 →
      NodeIdResolver.resolve (some (Sum.inr s)) podIp hostname randomVal =
          some ⟨NodeIdResolver.hashToUint16 (jsTrim s), NodeIdSource.explicit_string, false⟩ ∧
        NodeIdResolver.hashToUint16 (jsTrim s) =
          (sha256 (utf8Encode (jsTrim s))).getD 0 0 * 256 +
            (sha256 (utf8Encode (jsTrim s))).getD 1 0 ∧
        NodeIdResolver.hashToUint16 (jsTrim s) < 65536) ∧
    (0 ≤ n → n ≤ 65535 →
      NodeIdResolver.resolve (some (Sum.inl n)) podIp hostname randomVal =
        some ⟨n.toNat, NodeIdSource.explicit_number, false⟩) ∧
    ((jsTrim s).length = 0 →
      NodeIdResolver.resolve (some (Sum.inr s)) podIp hostname randomVal = none) ∧
    (n < 0 ∨ 65535 < n →
      NodeIdResolver.resolve (some (Sum.inl n)) podIp hostname randomVal = none) := by
  refine ⟨?_, ?_, ?_, ?_⟩
  · intro hne
    refine ⟨?_, rfl, hashToUint16_lt _⟩
    rw [NodeIdResolver.resolve, if_neg hne]
  · intro h0 h1
    rw [NodeIdResolver.resolve, if_pos ⟨h0, h1⟩]
  · intro heq
    rw [NodeIdResolver.resolve, if_pos heq]
  · intro hout
    rw [NodeIdResolver.resolve, if_neg (by omega)]

/-- C8 (witness) — the string `node-a` resolves through the explicit-string
branch regardless of the environment. -/
theorem c8_node_id_resolution_witness :
    (jsTrim [110, 111, 100, 101, 45, 97]).length ≠ 0 ∧
      (NodeIdResolver.resolve (some (Sum.inr [110, 111, 100, 101, 45, 97])) none none 0 =
          some ⟨NodeIdResolver.hashToUint16 (jsTrim [110, 111, 100, 101, 45, 97]),
            NodeIdSource.explicit_string, false⟩ ∧
        NodeIdResolver.hashToUint16 (jsTrim [110, 111, 100, 101, 45, 97]) =
          (sha256 (utf8Encode (jsTrim [110, 111, 100, 101, 45, 97]))).getD 0 0 * 256 +
            (sha256 (utf8Encode (jsTrim [110, 111, 100, 101, 45, 97]))).getD 1 0 ∧
        NodeIdResolver.hashToUint16 (jsTrim [110, 111, 100, 101, 45, 97]) < 65536) :=
  ⟨by decide,
    (c8_node_id_resolution [110, 111, 100, 101, 45, 97] 0 none none 0).1 (by decide)⟩

/-! ## VIDValue (src/core/VIDValue.ts)

For C9 the relevant behaviour is aliasing, so `Uint8Array` objects live in
an explicit store: a reference is an index into `Store.arrays`.  The
constructor's guards are followed by `this.binary = binary` (line 106) —
the caller's reference is stored, no copy is taken, even though the class
documentation promises a defensive copy.  `toBinary()` allocates a fresh
array (`new Uint8Array(this.binary)`) and returns its reference. -/

structure Store where
  arrays : List (List Nat)
deriving DecidableEq

def Store.read (st : Store) (r : Nat) : List Nat := st.arrays.getD r []

/-- Mutate one byte of the array behind reference `r` (e.g. `b[0] = 1`). -/
def Store.writeByte (st : Store) (r i v : Nat) : Store :=
  ⟨st.arrays.set r ((st.arrays.getD r []).set i v)⟩

structure VIDValueObj where
  binaryRef : Nat
deriving DecidableEq

/-- The `VIDValue` constructor: type/null guards (typed away), 18-byte
length guard, then `this.binary = binary` — the reference itself. -/
def VIDValue.construct (st : Store) (r : Nat) : Option VIDValueObj :=
  if (Store.read st r).length ≠ 18 then none else some ⟨r⟩

/-- `VIDValue.toBinary`: `new Uint8Array(this.binary)` — a fresh array whose
contents are the current bytes behind the stored reference. -/
def VIDValue.toBinary (st : Store) (v : VIDValueObj) : Nat × Store :=
  (st.arrays.length, ⟨st.arrays ++ [Store.read st v.binaryRef]⟩)

/-- C9 (code bug) — the constructor aliases its argument: construct `v` over
an 18-zero-byte array, mutate byte 0 of the caller's array to 1, and
`toBinary` then returns `01 00 … 00`, not the construction-time bytes — the
mutation is visible, contradicting the defensive-copy claim and the
constructor's own documentation.  The second half of the claim does hold:
`toBinary` allocates a fresh reference, so mutating the returned array does
not change what later reads observe. -/
theorem c9_constructor_aliases :
    VIDValue.construct ⟨[List.replicate 18 0]⟩ 0 = some ⟨0⟩ ∧
      (VIDValue.toBinary (Store.writeByte ⟨[List.replicate 18 0]⟩ 0 0 1) ⟨0⟩).1 = 1 ∧
      Store.read (VIDValue.toBinary (Store.writeByte ⟨[List.replicate 18 0]⟩ 0 0 1) ⟨0⟩).2 1 =
        1 :: List.replicate 17 0 ∧
      (1 :: List.replicate 17 0 ≠ List.replicate 18 0) ∧
      Store.read
        (Store.writeByte
          (VIDValue.toBinary (Store.writeByte ⟨[List.replicate 18 0]⟩ 0 0 1) ⟨0⟩).2
          1 0 99) 0 =
        1 :: List.replicate 17 0 := by
  refine ⟨by decide, by decide, by decide, by decide, by decide⟩

/-- The anchored `/^[A-Z2-7]{26}$/` of VIDValue.ts (`VID_STRING_REGEX`). -/
def VID_STRING_REGEX_test (s : List Nat) : Bool :=
  (s.length == 26) && s.all fun c => (65 ≤ c && c ≤ 90) || (50 ≤ c && c ≤ 55)

/-- `VIDValue.fromString`: trim and uppercase, 29-character length guard,
the 26-character regex guard, decode, construct (the result is the wrapped
18-byte binary). -/
def VIDValue.fromString (input : List Nat) : Option (List Nat) :=
  let trimmed := jsToUpper (jsTrim input)
  if trimmed.length ≠ 29 then none
  else if VID_STRING_REGEX_test trimmed = false then none
  else
    match Base32Encoder.decode trimmed with
    | none => none
    | some binary => if binary.length ≠ 18 then none else some binary

/-- `VIDMongoAdapter.fromString`: `VIDValue.fromString` then `toDatabase`
(which cannot fail on a `VIDValue` — it copies the 18 bytes into a BSON
`Binary`). -/
def VIDMongoAdapter.fromString (vidString : List Nat) : Option (List Nat) :=
  match VIDValue.fromString vidString with
  | none => none
  | some v => some v

/-- C10 — `VIDValue.fromString` throws on every input: the length guard
demands 29 characters while the anchored regex accepts only 26, so the two
can never both pass; `VIDMongoAdapter.fromString` therefore also throws on
every input. -/
theorem c10_fromString_always_throws (s : List Nat) :
    VIDValue.fromString s = none ∧ VIDMongoAdapter.fromString s = none := by
  have h : VIDValue.fromString s = none := by
    simp only [VIDValue.fromString]
    split_ifs with h1 h2
    · rfl
    · rfl
    · exfalso
      simp only [Bool.not_eq_false, VID_STRING_REGEX_test, Bool.and_eq_true,
        beq_iff_eq] at h2
      omega
  exact ⟨h, by rw [VIDMongoAdapter.fromString, h]⟩

/-- Known-answer check for the SHA-256 embedding (FIPS 180-4, message
`abc`). -/
theorem sha256_abc_vector :
    sha256 [97, 98, 99] =
      [186, 120, 22, 191, 143, 1, 207, 234, 65, 65, 64, 222, 93, 174, 34, 35,
       176, 3, 97, 163, 150, 23, 122, 156, 180, 16, 255, 97, 242, 0, 21, 173] := by
  decide

/-- Known-answer check for the HMAC-SHA256 embedding (RFC 4231 test case 2:
key `Jefe`, data `what do ya want for nothing?`). -/
theorem hmacSha256_rfc4231_tc2 :
    hmacSha256 [74, 101, 102, 101]
      [119, 104, 97, 116, 32, 100, 111, 32, 121, 97, 32, 119, 97, 110, 116,
       32, 102, 111, 114, 32, 110, 111, 116, 104, 105, 110, 103, 63] =
      [91, 220, 193, 70, 191, 96, 117, 78, 106, 4, 36, 38, 8, 149, 117, 199,
       90, 0, 63, 8, 157, 39, 57, 131, 157, 236, 88, 185, 100, 236, 56, 67] := by
  decide
